import Mathlib

/-!
# Verification of the Gaussian-elimination core of Math-with-Python

Shallow embedding of the two hand-written algorithms of the repository:

* `ref` from `Linear Algebra Exams script/REF.py` — row-echelon reduction
  with pivot tracking;
* `back_substitution` from `Linear Algebra Exams script/Back subtracktion.py`
  — the back-substitution solver over an echelon augmented matrix.

Scalars are exact rationals (`ℚ`, modelling `sympy.Rational`); symbolic
solution entries are affine expressions in the free parameters `t0, t1, …`
(modelling the `sympy.Expr` values the solver produces, which are always
affine in the parameter symbols).  `sp.simplify` on such exact expressions
is semantically the identity and is therefore not represented.
-/

namespace MathWithPython

/-- A matrix row: a list of exact rationals (a row of a `sympy.Matrix`). -/
abbrev Row := List ℚ

/-- A matrix: list of rows.  `sympy.Matrix` is rectangular by construction;
theorems that need rectangularity state it explicitly. -/
abbrev Mat := List Row

/-- Entry access `M[i, j]`, with the out-of-range default `0` (a `sympy`
matrix never reads out of range; the default only makes the model total). -/
def getE (M : Mat) (i j : Nat) : ℚ := (M.getD i []).getD j 0

/-- `M.cols` of a rectangular matrix: the length of its first row. -/
def matCols (M : Mat) : Nat := (M.headD []).length

/-- Number of rows, `M.rows`. -/
def matRows (M : Mat) : Nat := M.length

/-- `M` is a rectangular `matrix` with every row of length `n`. -/
def Rect (M : Mat) (n : Nat) : Prop := ∀ row ∈ M, row.length = n

/-! ## Back substitution (`Back subtracktion.py`) -/

/-- `is_inconsistent_row`: the row looks like `[0 0 … 0 | nonzero]`. -/
def is_inconsistent_row (row : Row) (n_vars : Nat) : Bool :=
  ((List.range n_vars).all fun j => decide (row.getD j 0 = 0)) &&
    decide (row.getD n_vars 0 ≠ 0)

/-- The pivot-column scan of `back_substitution`: the first `j < n_vars`
with `row[j] ≠ 0` (`-1`, i.e. `none`, if the coefficient part is zero). -/
def pivotColForRow (row : Row) (n_vars : Nat) : Option Nat :=
  (List.range n_vars).find? fun j => decide (row.getD j 0 ≠ 0)

/-- `j` is in the set `pivot_cols` collected by `back_substitution`. -/
def isPivotCol (Ab : Mat) (n_vars j : Nat) : Bool :=
  (List.range Ab.length).any fun i =>
    pivotColForRow (Ab.getD i []) n_vars == some j

/-- `free_cols = [j for j in range(n_vars) if j not in pivot_cols]`. -/
def free_cols (Ab : Mat) (n_vars : Nat) : List Nat :=
  (List.range n_vars).filter fun j => !(isPivotCol Ab n_vars j)

/-- A symbolic solution entry: an affine expression
`const + Σ coef k * t k` in the free-parameter symbols `t0, t1, …`
(the shape every `sympy.Expr` produced by the solver has). -/
structure Aff where
  const : ℚ
  coef : Nat → ℚ

/-- A concrete rational as an expression (e.g. `sp.Integer(0)`). -/
def Aff.ofConst (q : ℚ) : Aff := ⟨q, fun _ => 0⟩

/-- The bare parameter symbol `t k`. -/
def Aff.param (k : Nat) : Aff := ⟨0, fun i => if i = k then 1 else 0⟩

/-- Expression subtraction. -/
def Aff.sub (a b : Aff) : Aff :=
  ⟨a.const - b.const, fun i => a.coef i - b.coef i⟩

/-- Multiplication by a rational scalar. -/
def Aff.smulQ (q : ℚ) (a : Aff) : Aff :=
  ⟨q * a.const, fun i => q * a.coef i⟩

/-- Division by a rational scalar. -/
def Aff.divQ (a : Aff) (q : ℚ) : Aff :=
  ⟨a.const / q, fun i => a.coef i / q⟩

/-- Evaluate an expression at a concrete assignment `ts` of the parameter
symbols `t0 … t(nf-1)`. -/
def Aff.eval (nf : Nat) (ts : Nat → ℚ) (a : Aff) : ℚ :=
  a.const + ∑ k in Finset.range nf, a.coef k * ts k

/-- The initial solution list: `x = [0]*n_vars`, then
`x[j] = t[k] for k, j in enumerate(free_cols)`. -/
def initX (Ab : Mat) (n_vars : Nat) : List Aff :=
  (free_cols Ab n_vars).enum.foldl
    (fun x kj => x.set kj.2 (Aff.param kj.1))
    (List.replicate n_vars (Aff.ofConst 0))

/-- One iteration of the bottom-to-top loop of `back_substitution`
(the body for row `i`): skip if the row has no pivot, else subtract the
known terms right of the pivot from `rhs` and divide by the pivot
coefficient. -/
def backSubRow (Ab : Mat) (n_vars : Nat) (x : List Aff) (i : Nat) : List Aff :=
  match pivotColForRow (Ab.getD i []) n_vars with
  | none => x
  | some pc =>
    let rhs := (List.range' (pc + 1) (n_vars - (pc + 1))).foldl
      (fun r j => r.sub (Aff.smulQ (getE Ab i j) (x.getD j (Aff.ofConst 0))))
      (Aff.ofConst (getE Ab i n_vars))
    x.set pc (rhs.divQ (getE Ab i pc))

/-- The `for i in range(m - 1, -1, -1)` loop. -/
def backSubLoop (Ab : Mat) (n_vars m : Nat) (x : List Aff) : List Aff :=
  (List.range m).reverse.foldl (backSubRow Ab n_vars) x

/-- The `InputError` exceptions `back_substitution` can raise. -/
inductive InputError
  | wrongColumns
  | inconsistentSystem
deriving DecidableEq

/-- The message string of each raised `InputError`. -/
def InputError.msg : InputError → String
  | .wrongColumns => "Augmented matrix has wrong number of columns."
  | .inconsistentSystem =>
      "System is inconsistent (row of form 0=nonzero). No solution."

/-- `back_substitution(Ab, n_vars)`.  The Python return type is a bare
`tuple[list[sp.Expr], list[int]]`: errors leave the function as raised
`InputError` exceptions, which `Except.error` models (`Except.ok` models a
normal `return`). -/
def back_substitution (Ab : Mat) (n_vars : Nat) :
    Except InputError (List Aff × List Nat) :=
  let m := Ab.length
  let total_cols := matCols Ab
  if total_cols ≠ n_vars + 1 then
    .error .wrongColumns
  else if (List.range m).any (fun i => is_inconsistent_row (Ab.getD i []) n_vars) then
    .error .inconsistentSystem
  else
    .ok (backSubLoop Ab n_vars m (initX Ab n_vars), free_cols Ab n_vars)

/-- The solution list of a successful solve (`[]` on a raised exception). -/
def solutionOf (Ab : Mat) (n_vars : Nat) : List Aff :=
  match back_substitution Ab n_vars with
  | .ok (x, _) => x
  | .error _ => []

/-- The free-column list of a successful solve (`[]` on a raised
exception). -/
def freeColsOf (Ab : Mat) (n_vars : Nat) : List Nat :=
  match back_substitution Ab n_vars with
  | .ok (_, fc) => fc
  | .error _ => []

/-! ## Row-echelon reduction (`REF.py`) -/

/-- `M.row_swap(i, j)`: swap two rows in place. -/
def rowSwap (M : Mat) (i j : Nat) : Mat :=
  (M.set i (M.getD j [])).set j (M.getD i [])

/-- `M.row_op(r, lambda val, j: val - factor * M[prow, j])`: replace row `r`
by itself minus `factor` times row `prow`, elementwise over row `r`'s
indices. -/
def rowOpSub (M : Mat) (r : Nat) (factor : ℚ) (prow : Nat) : Mat :=
  M.set r ((List.range (M.getD r []).length).map
    fun j => getE M r j - factor * getE M prow j)

/-- The `eliminate below pivot` loop of `ref`: for each row `r` in
`pivot_row+1 .. m-1`, if `M[r, col] ≠ 0`, subtract
`(M[r, col] / pivot_val) ×` the pivot row from it. -/
def elimBelow (M : Mat) (pivot_row col : Nat) (pivot_val : ℚ) (m : Nat) : Mat :=
  (List.range' (pivot_row + 1) (m - (pivot_row + 1))).foldl
    (fun N r =>
      if getE N r col = 0 then N
      else rowOpSub N r (getE N r col / pivot_val) pivot_row)
    M

/-- The mutable state of `ref`'s column loop: the working matrix `M`, the
cursor `pivot_row`, and the accumulated `pivot_cols`. -/
structure RefState where
  M : Mat
  pivot_row : Nat
  pivot_cols : List Nat

/-- The body of `ref`'s `for col in range(n)` loop (with the
`if pivot_row >= m: break` guard folded in as a no-op, which is equivalent
because `pivot_row` never decreases). -/
def refStep (m : Nat) (st : RefState) (col : Nat) : RefState :=
  if st.pivot_row ≥ m then st
  else
    match (List.range' st.pivot_row (m - st.pivot_row)).find?
        (fun r => decide (getE st.M r col ≠ 0)) with
    | none => st
    | some pivot =>
      let M1 := if pivot ≠ st.pivot_row then rowSwap st.M pivot st.pivot_row
                else st.M
      let pivot_val := getE M1 st.pivot_row col
      ⟨elimBelow M1 st.pivot_row col pivot_val m,
        st.pivot_row + 1, st.pivot_cols ++ [col]⟩

/-- `ref(A)`: row-echelon form by Gaussian elimination, working on a copy
`M = A.copy()`; pivots are not normalised to 1; returns the reduced matrix
and the ordered pivot columns. -/
def ref (A : Mat) : Mat × List Nat :=
  let m := A.length
  let n := matCols A
  let final := (List.range n).foldl (refStep m) ⟨A, 0, []⟩
  (final.M, final.pivot_cols)

/-! ## Specification-side predicates -/

/-- The left-hand side of row `i`'s equation of the augmented matrix `Ab`
under the assignment `xv` of values to the variables:
`Σ_{j < n_vars} Ab[i, j] * xv j`. -/
def eqSum (Ab : Mat) (n_vars i : Nat) (xv : Nat → ℚ) : ℚ :=
  ∑ j in Finset.range n_vars, getE Ab i j * xv j

/-- Row echelon form (glossary): whenever a row `i2` is nonzero — has a
leading nonzero entry among the matrix's `n` columns — every row `i1`
above it is nonzero as well, with its leading entry strictly to the left.
This forces zero rows to the bottom and leading columns to increase
strictly with the row index. -/
def IsEchelonMat (A : Mat) (n : Nat) : Prop :=
  ∀ i2, i2 < A.length → ∀ i1, i1 < i2 →
    ∀ p2, pivotColForRow (A.getD i2 []) n = some p2 →
      ∃ p1, pivotColForRow (A.getD i1 []) n = some p1 ∧ p1 < p2

/-- Row `i` of `M` as a vector of `Nat → ℚ` (entries beyond the row are
`0`). -/
def rowVec (M : Mat) (i : Nat) : Nat → ℚ := fun j => getE M i j

/-- The set of row vectors of `M`. -/
def rowSet (M : Mat) : Set (Nat → ℚ) :=
  {v | ∃ i, i < M.length ∧ v = rowVec M i}

/-- The row space of `M`: the span of its rows over `ℚ`. -/
def rowSpan (M : Mat) : Submodule ℚ (Nat → ℚ) :=
  Submodule.span ℚ (rowSet M)

/-- The solution set of the linear system encoded by the augmented matrix
`M` with `n_vars` unknowns (last column = right-hand side). -/
def solSet (M : Mat) (n_vars : Nat) : Set (Nat → ℚ) :=
  {x | ∀ i, i < M.length → eqSum M n_vars i x = getE M i n_vars}

/-! ## Object-level (heap) model for the mutation claims

`sympy.Matrix` objects are mutable; to state that `ref` never mutates the
caller's matrix we model matrix objects explicitly: a heap maps object
addresses to matrix values, and every in-place operation (`row_swap`,
`row_op`) is a write to the address of its receiver. -/

/-- A heap of matrix objects, indexed by address. -/
def Heap := Nat → Mat

/-- Overwrite the object at address `a`. -/
def writeObj (h : Heap) (a : Nat) (M : Mat) : Heap :=
  fun x => if x = a then M else h x

/-- `elimBelow` at heap level: each `row_op` is a write to the working
object `aM`. -/
def elimBelowH (h : Heap) (aM : Nat) (pivot_row col : Nat) (pivot_val : ℚ)
    (m : Nat) : Heap :=
  (List.range' (pivot_row + 1) (m - (pivot_row + 1))).foldl
    (fun h r =>
      if getE (h aM) r col = 0 then h
      else writeObj h aM (rowOpSub (h aM) r (getE (h aM) r col / pivot_val) pivot_row))
    h

/-- The state of `ref`'s column loop at heap level. -/
structure RefStateH where
  heap : Heap
  pivot_row : Nat
  pivot_cols : List Nat

/-- `refStep` at heap level: the row swap and the eliminations write to the
working object `aM`; everything is read from `aM`. -/
def refStepH (aM m : Nat) (st : RefStateH) (col : Nat) : RefStateH :=
  if st.pivot_row ≥ m then st
  else
    match (List.range' st.pivot_row (m - st.pivot_row)).find?
        (fun r => decide (getE (st.heap aM) r col ≠ 0)) with
    | none => st
    | some pivot =>
      let h1 := if pivot ≠ st.pivot_row
                then writeObj st.heap aM (rowSwap (st.heap aM) pivot st.pivot_row)
                else st.heap
      let pivot_val := getE (h1 aM) st.pivot_row col
      ⟨elimBelowH h1 aM st.pivot_row col pivot_val m,
        st.pivot_row + 1, st.pivot_cols ++ [col]⟩

/-- `ref` at heap level.  `aA` is the address of the caller's matrix `A`;
`M = A.copy()` allocates a fresh object at the distinct address `aM` and
every subsequent mutation targets `aM`.  Returns the final heap together
with the returned value `(reference to the object at aM, pivot_cols)`. -/
def refH (h : Heap) (aA aM : Nat) : Heap × Nat × List Nat :=
  let h0 := writeObj h aM (h aA)
  let m := (h0 aM).length
  let n := matCols (h0 aM)
  let final := (List.range n).foldl (refStepH aM m) ⟨h0, 0, []⟩
  (final.heap, aM, final.pivot_cols)

/-- `back_substitution` at heap level: the function reads the augmented
matrix object at `aAb` and performs no write to any matrix object (the
solution list `x` is a fresh Python list, not a matrix); the heap is
returned unchanged. -/
def back_substitutionH (h : Heap) (aAb : Nat) (n_vars : Nat) :
    Heap × Except InputError (List Aff × List Nat) :=
  (h, back_substitution (h aAb) n_vars)

/-! ## Helper lemmas: lists and scans -/

theorem getD_set_self {α : Type} {x : List α} {i : Nat} (h : i < x.length)
    (v d : α) : (x.set i v).getD i d = v := by
  rw [List.getD_eq_getElem?_getD, List.getElem?_set]
  simp [h]

theorem getD_set_ne {α : Type} {x : List α} {i j : Nat} (h : i ≠ j)
    (v : α) (d : α) : (x.set i v).getD j d = x.getD j d := by
  rw [List.getD_eq_getElem?_getD, List.getElem?_set, if_neg h,
    ← List.getD_eq_getElem?_getD]

theorem find?_range'_some {p : Nat → Bool} :
    ∀ {k s a : Nat}, (List.range' s k).find? p = some a →
      p a = true ∧ s ≤ a ∧ a < s + k ∧ ∀ b, s ≤ b → b < a → p b = false := by
  intro k
  induction k with
  | zero => intro s a h; simp at h
  | succ k ih =>
    intro s a h
    rw [List.range'_succ] at h
    by_cases hps : p s = true
    · rw [List.find?_cons_of_pos _ hps] at h
      cases h
      exact ⟨hps, le_refl s, by omega, fun b hb1 hb2 => absurd hb1 (by omega)⟩
    · rw [List.find?_cons_of_neg _ hps] at h
      obtain ⟨h1, h2, h3, h4⟩ := ih h
      refine ⟨h1, by omega, by omega, fun b hb1 hb2 => ?_⟩
      rcases Nat.eq_or_lt_of_le hb1 with heq | hlt
      · rw [← heq]; exact eq_false_of_ne_true hps
      · exact h4 b hlt hb2

theorem find?_range_some {p : Nat → Bool} {n a : Nat}
    (h : (List.range n).find? p = some a) :
    p a = true ∧ a < n ∧ ∀ b, b < a → p b = false := by
  rw [List.range_eq_range'] at h
  obtain ⟨h1, _, h3, h4⟩ := find?_range'_some h
  exact ⟨h1, by omega, fun b hb => h4 b (Nat.zero_le b) hb⟩

theorem find?_range_eq_some_of {p : Nat → Bool} {n a : Nat}
    (h1 : a < n) (h2 : p a = true) (h3 : ∀ b, b < a → p b = false) :
    (List.range n).find? p = some a := by
  cases hf : (List.range n).find? p with
  | none =>
    rw [List.find?_eq_none] at hf
    exact absurd h2 (by simpa using hf a (List.mem_range.mpr h1))
  | some b =>
    obtain ⟨hb1, _, hb3⟩ := find?_range_some hf
    rcases Nat.lt_trichotomy a b with hlt | heq | hgt
    · rw [hb3 a hlt] at h2; exact absurd h2 (by simp)
    · rw [heq]
    · rw [h3 b hgt] at hb1; exact absurd hb1 (by simp)

/-- A fold whose step preserves a predicate preserves it over the whole
list; the step may use membership of its element. -/
theorem foldl_preserve {β γ : Type} (step : γ → β → γ) (P : γ → Prop) :
    ∀ (l : List β) (x : γ), (∀ y b, b ∈ l → P y → P (step y b)) → P x →
      P (l.foldl step x) := by
  intro l
  induction l with
  | nil => intro x _ hx; exact hx
  | cons a l ih =>
    intro x hstep hx
    exact ih (step x a) (fun y b hb => hstep y b (List.mem_cons_of_mem a hb))
      (hstep x a (List.mem_cons_self a l) hx)

/-! ## Helper lemmas: the pivot scan -/

theorem pivotColForRow_some {row : Row} {n p : Nat}
    (h : pivotColForRow row n = some p) :
    p < n ∧ row.getD p 0 ≠ 0 ∧ ∀ j, j < p → row.getD j 0 = 0 := by
  obtain ⟨h1, h2, h3⟩ := find?_range_some h
  refine ⟨h2, by simpa using h1, fun j hj => ?_⟩
  simpa using h3 j hj

theorem pivotColForRow_none {row : Row} {n : Nat}
    (h : pivotColForRow row n = none) : ∀ j, j < n → row.getD j 0 = 0 := by
  rw [pivotColForRow, List.find?_eq_none] at h
  intro j hj
  simpa using h j (List.mem_range.mpr hj)

theorem pivotColForRow_extend {row : Row} {n p : Nat}
    (h : pivotColForRow row n = some p) :
    pivotColForRow row (n + 1) = some p := by
  obtain ⟨h1, h2, h3⟩ := pivotColForRow_some h
  exact find?_range_eq_some_of (by omega) (by simpa using h2)
    (fun b hb => by simpa using h3 b hb)

/-! ## Helper lemmas: evaluation of affine expressions -/

theorem Aff.eval_ofConst (nf : Nat) (ts : Nat → ℚ) (q : ℚ) :
    (Aff.ofConst q).eval nf ts = q := by
  simp [Aff.eval, Aff.ofConst]

theorem Aff.eval_param {nf k : Nat} (ts : Nat → ℚ) (hk : k < nf) :
    (Aff.param k).eval nf ts = ts k := by
  rw [Aff.eval, Aff.param]
  have : ∀ i ∈ Finset.range nf,
      (if i = k then (1 : ℚ) else 0) * ts i = if i = k then ts i else 0 := by
    intro i _
    by_cases hik : i = k <;> simp [hik]
  rw [Finset.sum_congr rfl this, Finset.sum_ite_eq' (Finset.range nf) k ts]
  simp [Finset.mem_range.mpr hk]

theorem Aff.eval_sub (nf : Nat) (ts : Nat → ℚ) (a b : Aff) :
    (a.sub b).eval nf ts = a.eval nf ts - b.eval nf ts := by
  simp only [Aff.eval, Aff.sub, sub_mul, Finset.sum_sub_distrib]
  ring

theorem Aff.eval_smulQ (nf : Nat) (ts : Nat → ℚ) (q : ℚ) (a : Aff) :
    (Aff.smulQ q a).eval nf ts = q * a.eval nf ts := by
  simp only [Aff.eval, Aff.smulQ, mul_add, Finset.mul_sum]
  ring_nf

theorem Aff.eval_divQ (nf : Nat) (ts : Nat → ℚ) (q : ℚ) (a : Aff) :
    (Aff.divQ a q).eval nf ts = a.eval nf ts / q := by
  simp only [Aff.eval, Aff.divQ, div_mul_eq_mul_div, ← Finset.sum_div]
  rw [div_add_div_same]

/-! ## Claim theorems: error handling of `back_substitution` -/

/-- C8: `back_substitution` fails with the malformed-input error exactly
when the augmented matrix does not have `n_vars + 1` columns; the check is
first, so this holds with no condition on the matrix's rows (in particular
it fires even when an inconsistent row is also present). -/
theorem back_substitution_shape_check (Ab : Mat) (n_vars : Nat) :
    back_substitution Ab n_vars = .error .wrongColumns ↔
      matCols Ab ≠ n_vars + 1 := by
  simp only [back_substitution]
  split_ifs with h1 h2 <;> simp_all

/-- C4: on a well-shaped augmented matrix, `back_substitution` reports the
system inconsistent exactly when some row has all of its first `n_vars`
entries zero and a nonzero last entry; the raised error carries no
solution data, so no partial solution is produced. -/
theorem back_substitution_inconsistency_check (Ab : Mat) (n_vars : Nat)
    (hcols : matCols Ab = n_vars + 1) :
    back_substitution Ab n_vars = .error .inconsistentSystem ↔
      ∃ i, i < Ab.length ∧ is_inconsistent_row (Ab.getD i []) n_vars = true := by
  simp only [back_substitution]
  rw [if_neg (not_not_intro hcols)]
  split_ifs with h2
  · simp only [List.any_eq_true, List.mem_range] at h2
    simpa using h2
  · simp only [List.any_eq_true, List.mem_range] at h2
    simpa using h2

/-- C4 witness: on the planted inconsistent system `[0 0 0 | 5]` the solver
reports `Inconsistent`. -/
theorem back_substitution_inconsistency_check_witness :
    matCols [[0, 0, 0, 5]] = 3 + 1 ∧
      (back_substitution [[0, 0, 0, 5]] 3 = .error .inconsistentSystem ↔
        ∃ i, i < ([[0, 0, 0, 5]] : Mat).length ∧
          is_inconsistent_row (([[0, 0, 0, 5]] : Mat).getD i []) 3 = true) :=
  ⟨by decide, back_substitution_inconsistency_check [[0, 0, 0, 5]] 3 (by decide)⟩

/-- C2 counterexample: both error kinds leave `back_substitution` as raised
`InputError` exceptions (modelled by `Except.error`), not as values of the
function's return type `tuple[list, list]`: at `[[0,0,0,5]]` with 3
variables the inconsistency surfaces as a raised exception, and at
`[[1,2,3]]` with 3 variables the malformed input surfaces as a raised
exception. -/
theorem back_substitution_raises_counterexample :
    back_substitution [[0, 0, 0, 5]] 3 = .error .inconsistentSystem ∧
      back_substitution [[1, 2, 3]] 3 = .error .wrongColumns ∧
      InputError.inconsistentSystem.msg ≠ InputError.wrongColumns.msg := by
  refine ⟨?_, ?_, by decide⟩ <;> rfl

/-- C2 amended: every call either returns normally or raises one of the two
`InputError` exceptions — one for malformed input, one for inconsistency —
and the two exceptions are distinguishable (distinct constructors and
distinct messages), so a caller catching `InputError` can still tell
"no solution" from "bad input" from "solved". -/
theorem back_substitution_error_propagation (Ab : Mat) (n_vars : Nat) :
    ((back_substitution Ab n_vars).isOk = true ∨
      back_substitution Ab n_vars = .error .wrongColumns ∨
      back_substitution Ab n_vars = .error .inconsistentSystem) ∧
    InputError.wrongColumns.msg ≠ InputError.inconsistentSystem.msg := by
  refine ⟨?_, by decide⟩
  simp only [back_substitution]
  split_ifs <;> simp [Except.isOk, Except.toBool]

/-- C9: the pivot scan returns column `pc` only if the entry there is
nonzero (and `pc < n_vars`), so the division by `Ab[i, pc]` in the
back-substitution loop never divides by zero, echelon input or not. -/
theorem pivot_divisor_nonzero (Ab : Mat) (n_vars i pc : Nat)
    (h : pivotColForRow (Ab.getD i []) n_vars = some pc) :
    getE Ab i pc ≠ 0 ∧ pc < n_vars := by
  obtain ⟨h1, h2, _⟩ := pivotColForRow_some h
  exact ⟨h2, h1⟩

/-- C9 witness: on row `[0, 3, 7]` with 2 variables the scan returns
column 1, whose entry is nonzero. -/
theorem pivot_divisor_nonzero_witness :
    pivotColForRow (([[0, 3, 7]] : Mat).getD 0 []) 2 = some 1 ∧
      (getE [[0, 3, 7]] 0 1 ≠ 0 ∧ 1 < 2) :=
  ⟨by decide, pivot_divisor_nonzero [[0, 3, 7]] 2 0 1 (by decide)⟩

/-! ## Helper lemmas: the back-substitution loop -/

theorem backSubLoop_succ (Ab : Mat) (n m : Nat) (x : List Aff) :
    backSubLoop Ab n (m + 1) x = backSubLoop Ab n m (backSubRow Ab n x m) := by
  simp [backSubLoop, List.range_succ]

theorem backSubRow_length (Ab : Mat) (n : Nat) (x : List Aff) (i : Nat) :
    (backSubRow Ab n x i).length = x.length := by
  cases hpc : pivotColForRow (Ab.getD i []) n with
  | none => simp only [backSubRow, hpc]
  | some pc => simp only [backSubRow, hpc, List.length_set]

theorem backSubRow_getD_of_ne (Ab : Mat) (n : Nat) (x : List Aff)
    (i q : Nat) (d : Aff)
    (h : ∀ p, pivotColForRow (Ab.getD i []) n = some p → p ≠ q) :
    (backSubRow Ab n x i).getD q d = x.getD q d := by
  cases hpc : pivotColForRow (Ab.getD i []) n with
  | none => simp only [backSubRow, hpc]
  | some pc =>
    simp only [backSubRow, hpc]
    exact getD_set_ne (h pc hpc) _ _

theorem backSubLoop_getD_of_ne (Ab : Mat) (n : Nat) (q : Nat) (d : Aff) :
    ∀ (m : Nat) (x : List Aff),
      (∀ i, i < m → ∀ p, pivotColForRow (Ab.getD i []) n = some p → p ≠ q) →
      (backSubLoop Ab n m x).getD q d = x.getD q d := by
  intro m
  induction m with
  | zero => intro x _; simp [backSubLoop]
  | succ m ih =>
    intro x h
    rw [backSubLoop_succ, ih _ (fun i hi => h i (Nat.lt_succ_of_lt hi)),
      backSubRow_getD_of_ne _ _ _ _ _ _ (h m (Nat.lt_succ_self m))]

theorem rhsFold_eval (nf : Nat) (ts : Nat → ℚ) (c : Nat → ℚ) (x : List Aff)
    (d : Aff) :
    ∀ (l : List Nat) (r0 : Aff),
      Aff.eval nf ts (l.foldl (fun r j => r.sub (Aff.smulQ (c j) (x.getD j d))) r0)
        = Aff.eval nf ts r0
            - (l.map fun j => c j * Aff.eval nf ts (x.getD j d)).sum := by
  intro l
  induction l with
  | nil => intro r0; simp
  | cons a l ih =>
    intro r0
    simp only [List.foldl_cons, List.map_cons, List.sum_cons, ih,
      Aff.eval_sub, Aff.eval_smulQ]
    ring

theorem sum_map_range' (f : Nat → ℚ) :
    ∀ (k a : Nat), ((List.range' a k).map f).sum
      = ∑ j in Finset.Ico a (a + k), f j := by
  intro k
  induction k with
  | zero => intro a; simp
  | succ k ih =>
    intro a
    have hsplit : ∑ j in Finset.Ico a (a + (k + 1)), f j
        = f a + ∑ j in Finset.Ico (a + 1) (a + (k + 1)), f j :=
      Finset.sum_eq_sum_Ico_succ_bot (by omega) f
    rw [List.range'_succ, List.map_cons, List.sum_cons, ih (a + 1),
      show (a + 1) + k = a + (k + 1) from by omega, hsplit]

/-! ## Helper lemmas: the row equations -/

theorem eqSum_congr_of_zero (Ab : Mat) (n i : Nat) (xv xv' : Nat → ℚ)
    (h : ∀ j, j < n → getE Ab i j ≠ 0 → xv j = xv' j) :
    eqSum Ab n i xv = eqSum Ab n i xv' := by
  refine Finset.sum_congr rfl fun j hj => ?_
  by_cases hz : getE Ab i j = 0
  · rw [hz, zero_mul, zero_mul]
  · rw [h j (Finset.mem_range.mp hj) hz]

theorem eqSum_zero_row (Ab : Mat) (n i : Nat) (xv : Nat → ℚ)
    (h : ∀ j, j < n → getE Ab i j = 0) : eqSum Ab n i xv = 0 := by
  refine Finset.sum_eq_zero fun j hj => ?_
  rw [h j (Finset.mem_range.mp hj), zero_mul]

theorem eqSum_pivot_split (Ab : Mat) (n i pc : Nat) (xv : Nat → ℚ)
    (hpc : pc < n) (hz : ∀ j, j < pc → getE Ab i j = 0) :
    eqSum Ab n i xv = getE Ab i pc * xv pc
      + ∑ j in Finset.Ico (pc + 1) n, getE Ab i j * xv j := by
  rw [eqSum, Finset.range_eq_Ico,
    ← Finset.sum_Ico_consecutive _ (Nat.zero_le pc) (le_of_lt hpc),
    Finset.sum_eq_sum_Ico_succ_bot hpc]
  have h0 : ∑ j in Finset.Ico 0 pc, getE Ab i j * xv j = 0 := by
    refine Finset.sum_eq_zero fun j hj => ?_
    rw [hz j (Finset.mem_Ico.mp hj).2, zero_mul]
  rw [h0, zero_add]

theorem rhs_zero_of_zero_row {row : Row} {n : Nat}
    (hz : ∀ j, j < n → row.getD j 0 = 0)
    (h : is_inconsistent_row row n = false) : row.getD n 0 = 0 := by
  rw [is_inconsistent_row] at h
  have hall : ((List.range n).all fun j => decide (row.getD j 0 = 0)) = true := by
    rw [List.all_eq_true]
    intro j hj
    simpa using hz j (List.mem_range.mp hj)
  rw [hall, Bool.true_and] at h
  simpa using h

/-- Setting the pivot entry of the solution list splits the row equation
into the pivot term and the untouched tail. -/
theorem eqSum_set_pivot (Ab : Mat) (n i pc : Nat) (x : List Aff) (v : Aff)
    (nf : Nat) (ts : Nat → ℚ) (hpcn : pc < n) (hlen : x.length = n)
    (hz : ∀ j, j < pc → getE Ab i j = 0) :
    eqSum Ab n i
      (fun j => Aff.eval nf ts ((x.set pc v).getD j (Aff.ofConst 0)))
      = getE Ab i pc * Aff.eval nf ts v
        + ∑ j in Finset.Ico (pc + 1) n,
            getE Ab i j * Aff.eval nf ts (x.getD j (Aff.ofConst 0)) := by
  rw [eqSum_pivot_split _ _ _ _ _ hpcn hz,
    getD_set_self (by rw [hlen]; exact hpcn) v (Aff.ofConst 0)]
  congr 1
  refine Finset.sum_congr rfl fun j hj => ?_
  have hj1 : pc ≠ j := by
    have := (Finset.mem_Ico.mp hj).1
    omega
  rw [getD_set_ne hj1]

/-- Processing one row establishes that row's equation. -/
theorem backSubRow_solves (Ab : Mat) (n : Nat) (nf : Nat) (ts : Nat → ℚ)
    (x : List Aff) (i : Nat) (hlen : x.length = n)
    (hcons : is_inconsistent_row (Ab.getD i []) n = false) :
    eqSum Ab n i
      (fun j => Aff.eval nf ts ((backSubRow Ab n x i).getD j (Aff.ofConst 0)))
      = getE Ab i n := by
  cases hpc : pivotColForRow (Ab.getD i []) n with
  | none =>
    have hz : ∀ j, j < n → getE Ab i j = 0 := fun j hj =>
      pivotColForRow_none hpc j hj
    simp only [backSubRow, hpc]
    rw [eqSum_zero_row _ _ _ _ hz]
    exact (rhs_zero_of_zero_row (fun j hj => hz j hj) hcons).symm
  | some pc =>
    obtain ⟨hpcn, hpv, hzbefore⟩ := pivotColForRow_some hpc
    have hpv' : getE Ab i pc ≠ 0 := hpv
    simp only [backSubRow, hpc]
    rw [eqSum_set_pivot Ab n i pc x _ nf ts hpcn hlen
      (fun j hj => hzbefore j hj)]
    rw [Aff.eval_divQ,
      rhsFold_eval nf ts (getE Ab i) x (Aff.ofConst 0), Aff.eval_ofConst,
      sum_map_range' _ (n - (pc + 1)) (pc + 1),
      show (pc + 1) + (n - (pc + 1)) = n from by omega,
      mul_comm (getE Ab i pc), div_mul_cancel₀ _ hpv']
    ring

/-- Soundness of the whole bottom-to-top loop: provided no row is
inconsistent and pivot columns strictly increase with the row index, every
row's equation is satisfied by the final solution list, whatever the
incoming list `x` is. -/
theorem backSubLoop_solves (Ab : Mat) (n nf : Nat) (ts : Nat → ℚ) :
    ∀ (m : Nat) (x : List Aff), x.length = n →
      (∀ i, i < m → is_inconsistent_row (Ab.getD i []) n = false) →
      (∀ i1 i2 p1 p2, i1 < i2 → i2 < m →
        pivotColForRow (Ab.getD i1 []) n = some p1 →
        pivotColForRow (Ab.getD i2 []) n = some p2 → p1 < p2) →
      ∀ i, i < m →
        eqSum Ab n i (fun j => Aff.eval nf ts
          ((backSubLoop Ab n m x).getD j (Aff.ofConst 0))) = getE Ab i n := by
  intro m
  induction m with
  | zero => intro x _ _ _ i hi; omega
  | succ m ih =>
    intro x hlen hcons hmono i hi
    rw [backSubLoop_succ]
    rcases Nat.lt_or_ge i m with him | him
    · exact ih (backSubRow Ab n x m) (by rw [backSubRow_length, hlen])
        (fun i' h => hcons i' (by omega))
        (fun i1 i2 p1 p2 h1 h2 e1 e2 => hmono i1 i2 p1 p2 h1 (by omega) e1 e2)
        i him
    · have him' : i = m := by omega
      subst him'
      have hrow : eqSum Ab n i (fun j => Aff.eval nf ts
          ((backSubRow Ab n x i).getD j (Aff.ofConst 0))) = getE Ab i n :=
        backSubRow_solves Ab n nf ts x i hlen (hcons i (by omega))
      rw [← hrow]
      apply eqSum_congr_of_zero
      intro j hj hnz
      congr 1
      apply backSubLoop_getD_of_ne
      intro i' hi' p hp
      cases hpcm : pivotColForRow (Ab.getD i []) n with
      | none => exact absurd (pivotColForRow_none hpcm j hj) hnz
      | some pcm =>
        have h1 := hmono i' i p pcm hi' (by omega) hp hpcm
        obtain ⟨_, _, hz⟩ := pivotColForRow_some hpcm
        have hjge : ¬ j < pcm := fun hlt => hnz (hz j hlt)
        omega

theorem initX_length (Ab : Mat) (n : Nat) : (initX Ab n).length = n := by
  rw [initX]
  exact foldl_preserve
    (fun (x : List Aff) (kj : Nat × Nat) => x.set kj.2 (Aff.param kj.1))
    (fun x => x.length = n) ((free_cols Ab n).enum)
    (List.replicate n (Aff.ofConst 0))
    (fun y b _ hy => by simp only [List.length_set]; exact hy)
    (List.length_replicate n _)

/-- On a successful call, the shape check passed, no row is inconsistent,
and the returned solution and free columns are the loop's results. -/
theorem back_substitution_ok_conditions (Ab : Mat) (n : Nat)
    (h : (back_substitution Ab n).isOk = true) :
    matCols Ab = n + 1 ∧
      (∀ i, i < Ab.length → is_inconsistent_row (Ab.getD i []) n = false) ∧
      solutionOf Ab n = backSubLoop Ab n Ab.length (initX Ab n) ∧
      freeColsOf Ab n = free_cols Ab n := by
  revert h
  simp only [back_substitution, solutionOf, freeColsOf]
  split_ifs with h1 h2
  · intro h; exact absurd h (by simp [Except.isOk, Except.toBool])
  · intro h; exact absurd h (by simp [Except.isOk, Except.toBool])
  · intro _
    refine ⟨by omega, fun i hi => ?_, rfl, rfl⟩
    rw [List.any_eq_true] at h2
    push_neg at h2
    have := h2 i (List.mem_range.mpr hi)
    simpa using this

/-- Executable check equivalent to `IsEchelonMat`. -/
def echelonCheck (A : Mat) (n : Nat) : Bool :=
  (List.range A.length).all fun i2 => (List.range i2).all fun i1 =>
    match pivotColForRow (A.getD i2 []) n with
    | none => true
    | some p2 =>
      match pivotColForRow (A.getD i1 []) n with
      | none => false
      | some p1 => decide (p1 < p2)

theorem isEchelonMat_iff (A : Mat) (n : Nat) :
    IsEchelonMat A n ↔ echelonCheck A n = true := by
  rw [IsEchelonMat, echelonCheck, List.all_eq_true]
  constructor
  · intro h i2 hi2
    rw [List.all_eq_true]
    intro i1 hi1
    rw [List.mem_range] at hi2 hi1
    cases hp2 : pivotColForRow (A.getD i2 []) n with
    | none => simp
    | some p2 =>
      obtain ⟨p1, hp1, hlt⟩ := h i2 hi2 i1 hi1 p2 hp2
      rw [hp1]
      simpa using hlt
  · intro h i2 hi2 i1 hi1 p2 hp2
    have h2 := h i2 (List.mem_range.mpr hi2)
    rw [List.all_eq_true] at h2
    have h1 := h2 i1 (List.mem_range.mpr (by omega))
    rw [hp2] at h1
    cases hp1 : pivotColForRow (A.getD i1 []) n with
    | none => rw [hp1] at h1; exact absurd h1 (by simp)
    | some p1 =>
      rw [hp1] at h1
      exact ⟨p1, rfl, by simpa using h1⟩

/-- C1: for an augmented matrix in echelon form on which
`back_substitution` reports no inconsistency (and returns normally),
substituting the returned solution — with the free parameters `t0, t1, …`
given arbitrary rational values `ts` — into each row's equation satisfies
that row exactly. -/
theorem back_substitution_roundtrip (Ab : Mat) (n_vars : Nat)
    (hok : (back_substitution Ab n_vars).isOk = true)
    (hech : IsEchelonMat Ab (n_vars + 1)) (i : Nat) (hi : i < Ab.length)
    (ts : Nat → ℚ) :
    eqSum Ab n_vars i (fun j => Aff.eval (freeColsOf Ab n_vars).length ts
      ((solutionOf Ab n_vars).getD j (Aff.ofConst 0))) = getE Ab i n_vars := by
  obtain ⟨hcols, hcons, hsol, hfc⟩ := back_substitution_ok_conditions Ab n_vars hok
  rw [hsol]
  refine backSubLoop_solves Ab n_vars _ ts Ab.length (initX Ab n_vars)
    (initX_length Ab n_vars) hcons ?_ i hi
  intro i1 i2 p1 p2 h1 h2 e1 e2
  have e1' := pivotColForRow_extend e1
  have e2' := pivotColForRow_extend e2
  obtain ⟨q1, hq1, hq1lt⟩ := hech i2 h2 i1 h1 p2 e2'
  have : p1 = q1 := Option.some.inj (e1'.symm.trans hq1)
  rw [this]
  exact hq1lt

/-- C1 witness: the unique-solution fixture `[A|b] = [[2,0,4],[0,3,9]]`
satisfies its first row under the returned solution. -/
theorem back_substitution_roundtrip_witness :
    (back_substitution [[2, 0, 4], [0, 3, 9]] 2).isOk = true ∧
      IsEchelonMat [[2, 0, 4], [0, 3, 9]] (2 + 1) ∧
      0 < ([[2, 0, 4], [0, 3, 9]] : Mat).length ∧
      eqSum [[2, 0, 4], [0, 3, 9]] 2 0
        (fun j => Aff.eval (freeColsOf [[2, 0, 4], [0, 3, 9]] 2).length
          (fun _ => 0)
          ((solutionOf [[2, 0, 4], [0, 3, 9]] 2).getD j (Aff.ofConst 0)))
        = getE [[2, 0, 4], [0, 3, 9]] 0 2 :=
  ⟨by decide, (isEchelonMat_iff _ _).mpr (by decide), by decide,
    back_substitution_roundtrip [[2, 0, 4], [0, 3, 9]] 2 (by decide)
      ((isEchelonMat_iff _ _).mpr (by decide)) 0 (by decide) (fun _ => 0)⟩

/-! ## Claim C7: free columns and their parameter symbols -/

theorem isPivotCol_iff (Ab : Mat) (n j : Nat) :
    isPivotCol Ab n j = true ↔
      ∃ i, i < Ab.length ∧ pivotColForRow (Ab.getD i []) n = some j := by
  rw [isPivotCol, List.any_eq_true]
  constructor
  · rintro ⟨i, hi, hbeq⟩
    exact ⟨i, List.mem_range.mp hi, beq_iff_eq.mp hbeq⟩
  · rintro ⟨i, hi, heq⟩
    exact ⟨i, List.mem_range.mpr hi, beq_iff_eq.mpr heq⟩

theorem mem_free_cols (Ab : Mat) (n j : Nat) :
    j ∈ free_cols Ab n ↔ j < n ∧
      ¬ ∃ i, i < Ab.length ∧ pivotColForRow (Ab.getD i []) n = some j := by
  rw [free_cols, List.mem_filter, List.mem_range, Bool.not_eq_true',
    ← Bool.not_eq_true, ← isPivotCol_iff]

theorem free_cols_pairwise (Ab : Mat) (n : Nat) :
    (free_cols Ab n).Pairwise (· < ·) :=
  (List.pairwise_lt_range n).filter _

theorem free_cols_nodup (Ab : Mat) (n : Nat) : (free_cols Ab n).Nodup :=
  (List.nodup_range n).filter _

/-- Positions not named by the enumerated fold keep their value. -/
theorem foldl_enumFrom_set_not_mem (d : Aff) :
    ∀ (l : List Nat) (s : Nat) (x : List Aff) (q : Nat), q ∉ l →
      ((l.enumFrom s).foldl (fun x kj => x.set kj.2 (Aff.param kj.1)) x).getD q d
        = x.getD q d := by
  intro l
  induction l with
  | nil => intro s x q _; rfl
  | cons a l ih =>
    intro s x q hq
    rw [List.enumFrom_cons, List.foldl_cons,
      ih (s + 1) _ q (fun h => hq (List.mem_cons_of_mem a h)),
      getD_set_ne (fun h => hq (by rw [← h]; exact List.mem_cons_self a l)) _ _]

/-- The `k`-th position named by the enumerated fold receives the `(s+k)`-th
parameter symbol. -/
theorem foldl_enumFrom_set_get (d : Aff) :
    ∀ (l : List Nat) (s : Nat) (x : List Aff), l.Nodup →
      (∀ a ∈ l, a < x.length) →
      ∀ k (hk : k < l.length),
        ((l.enumFrom s).foldl (fun x kj => x.set kj.2 (Aff.param kj.1)) x).getD
            (l.get ⟨k, hk⟩) d
          = Aff.param (s + k) := by
  intro l
  induction l with
  | nil => intro s x _ _ k hk; exact absurd hk (by simp)
  | cons a l ih =>
    intro s x hnd hbound k hk
    rw [List.enumFrom_cons, List.foldl_cons]
    rcases Nat.eq_zero_or_pos k with hk0 | hkpos
    · subst hk0
      have ha : (a :: l).get ⟨0, hk⟩ = a := rfl
      rw [ha, foldl_enumFrom_set_not_mem d l (s + 1) _ a
          (List.Nodup.not_mem hnd),
        getD_set_self (hbound a (List.mem_cons_self a l)) _ _, Nat.add_zero]
    · obtain ⟨k', rfl⟩ : ∃ k', k = k' + 1 := ⟨k - 1, by omega⟩
      have hget : (a :: l).get ⟨k' + 1, hk⟩ = l.get ⟨k', by simpa using hk⟩ := rfl
      rw [hget, ih (s + 1) (x.set a (Aff.param s)) (List.Nodup.of_cons hnd)
        (fun b hb => by
          rw [List.length_set]; exact hbound b (List.mem_cons_of_mem a hb))
        k' (by simpa using hk)]
      congr 1
      omega

/-- In the returned solution, free columns are never overwritten by the
back-substitution loop. -/
theorem backSubLoop_free_untouched (Ab : Mat) (n m : Nat) (x : List Aff)
    (q : Nat) (hq : q ∈ free_cols Ab n) (hm : m ≤ Ab.length) (d : Aff) :
    (backSubLoop Ab n m x).getD q d = x.getD q d := by
  apply backSubLoop_getD_of_ne
  intro i hi p hp
  intro hpq
  subst hpq
  exact ((mem_free_cols Ab n p).mp hq).2 ⟨i, by omega, hp⟩

/-- C7: the free columns are exactly the columns of `0..n_vars` that are no
pivot column, listed in increasing order, and in the returned solution the
`k`-th free column holds its own fresh parameter symbol `t k`. -/
theorem free_columns_bound_to_params (Ab : Mat) (n_vars : Nat)
    (hok : (back_substitution Ab n_vars).isOk = true) :
    (∀ j, j ∈ freeColsOf Ab n_vars ↔ j < n_vars ∧
      ¬ ∃ i, i < Ab.length ∧
        pivotColForRow (Ab.getD i []) n_vars = some j) ∧
    (freeColsOf Ab n_vars).Pairwise (· < ·) ∧
    ∀ k (hk : k < (freeColsOf Ab n_vars).length),
      (solutionOf Ab n_vars).getD ((freeColsOf Ab n_vars).get ⟨k, hk⟩)
          (Aff.ofConst 0)
        = Aff.param k := by
  obtain ⟨hcols, hcons, hsol, hfc⟩ :=
    back_substitution_ok_conditions Ab n_vars hok
  rw [hsol, hfc]
  refine ⟨fun j => mem_free_cols Ab n_vars j, free_cols_pairwise Ab n_vars,
    fun k hk => ?_⟩
  rw [backSubLoop_free_untouched Ab n_vars Ab.length _ _
      (List.get_mem _ k hk) (le_refl _) (Aff.ofConst 0)]
  rw [initX, List.enum_eq_enumFrom]
  have := foldl_enumFrom_set_get (Aff.ofConst 0) (free_cols Ab n_vars) 0
    (List.replicate n_vars (Aff.ofConst 0)) (free_cols_nodup Ab n_vars)
    (fun a ha => by
      rw [List.length_replicate]
      exact ((mem_free_cols Ab n_vars a).mp ha).1)
    k hk
  rw [this, Nat.zero_add]

/-- C7 witness: on the fixture `[[1,1,0,2]]` with 3 variables the free
columns are `[1, 2]` and each holds its own parameter. -/
theorem free_columns_bound_to_params_witness :
    (back_substitution [[1, 1, 0, 2]] 3).isOk = true ∧
      (∀ j, j ∈ freeColsOf [[1, 1, 0, 2]] 3 ↔ j < 3 ∧
        ¬ ∃ i, i < ([[1, 1, 0, 2]] : Mat).length ∧
          pivotColForRow (([[1, 1, 0, 2]] : Mat).getD i []) 3 = some j) ∧
      (freeColsOf [[1, 1, 0, 2]] 3).Pairwise (· < ·) ∧
      ∀ k (hk : k < (freeColsOf [[1, 1, 0, 2]] 3).length),
        (solutionOf [[1, 1, 0, 2]] 3).getD
            ((freeColsOf [[1, 1, 0, 2]] 3).get ⟨k, hk⟩) (Aff.ofConst 0)
          = Aff.param k :=
  ⟨by decide, free_columns_bound_to_params [[1, 1, 0, 2]] 3 (by decide)⟩

/-! ## Helper lemmas: rows and elementary row operations -/

theorem getE_of_ge_length {M : Mat} {r : Nat} (h : M.length ≤ r) (c : Nat) :
    getE M r c = 0 := by
  have hrow : M.getD r [] = [] := by
    rw [List.getD_eq_getElem?_getD, List.getElem?_eq_none h]
    rfl
  rw [getE, hrow]
  rfl

theorem getD_map_range (g : Nat → ℚ) (len j : Nat) :
    ((List.range len).map g).getD j 0 = if j < len then g j else 0 := by
  rw [List.getD_eq_getElem?_getD, List.getElem?_map]
  by_cases hj : j < len
  · rw [List.getElem?_range hj]
    simp [hj]
  · rw [List.getElem?_eq_none (by rw [List.length_range]; omega)]
    simp [hj]

theorem rowSwap_length (M : Mat) (a b : Nat) :
    (rowSwap M a b).length = M.length := by
  rw [rowSwap, List.length_set, List.length_set]

theorem rowSwap_getD_fst (M : Mat) (a b : Nat) (hb : b < M.length) :
    (rowSwap M a b).getD b [] = M.getD a [] := by
  rw [rowSwap]
  exact getD_set_self (by rw [List.length_set]; exact hb) _ _

theorem rowSwap_getD_snd (M : Mat) (a b : Nat) (ha : a < M.length)
    (hab : a ≠ b) : (rowSwap M a b).getD a [] = M.getD b [] := by
  rw [rowSwap, getD_set_ne (fun h => hab h.symm) _ _]
  exact getD_set_self ha _ _

theorem rowSwap_getD_other (M : Mat) (a b q : Nat) (hqa : q ≠ a)
    (hqb : q ≠ b) : (rowSwap M a b).getD q [] = M.getD q [] := by
  rw [rowSwap, getD_set_ne (fun h => hqb h.symm) _ _,
    getD_set_ne (fun h => hqa h.symm) _ _]

theorem rowOpSub_length (M : Mat) (r : Nat) (factor : ℚ) (prow : Nat) :
    (rowOpSub M r factor prow).length = M.length := by
  rw [rowOpSub, List.length_set]

theorem rowOpSub_getD_other (M : Mat) (r : Nat) (factor : ℚ) (prow q : Nat)
    (hq : q ≠ r) : (rowOpSub M r factor prow).getD q [] = M.getD q [] := by
  rw [rowOpSub, getD_set_ne (fun h => hq h.symm) _ _]

theorem rowOpSub_getE_self (M : Mat) (r : Nat) (factor : ℚ) (prow c : Nat)
    (hr : r < M.length) :
    getE (rowOpSub M r factor prow) r c
      = if c < (M.getD r []).length then getE M r c - factor * getE M prow c
        else 0 := by
  rw [getE, rowOpSub, getD_set_self hr _ _, getD_map_range]

/-- The elimination fold touches no row outside its index list. -/
theorem elimFold_getD_not_mem (col prow : Nat) (pv : ℚ) :
    ∀ (l : List Nat) (N : Mat) (q : Nat), q ∉ l →
      ((l.foldl (fun N r => if getE N r col = 0 then N
          else rowOpSub N r (getE N r col / pv) prow) N).getD q [])
        = N.getD q [] := by
  intro l
  induction l with
  | nil => intro N q _; rfl
  | cons a l ih =>
    intro N q hq
    rw [List.foldl_cons, ih _ q (fun h => hq (List.mem_cons_of_mem a h))]
    by_cases ha : getE N a col = 0
    · rw [if_pos ha]
    · rw [if_neg ha,
        rowOpSub_getD_other _ _ _ _ _ (fun h => hq (by rw [h]; exact List.mem_cons_self a l))]

/-- `getE` version of `elimFold_getD_not_mem`. -/
theorem elimFold_getE_not_mem (col prow : Nat) (pv : ℚ) (l : List Nat)
    (N : Mat) (q : Nat) (hq : q ∉ l) (c : Nat) :
    getE (l.foldl (fun N r => if getE N r col = 0 then N
        else rowOpSub N r (getE N r col / pv) prow) N) q c
      = getE N q c :=
  congrArg (fun row => row.getD c 0) (elimFold_getD_not_mem col prow pv l N q hq)

theorem elimFold_length (col prow : Nat) (pv : ℚ) (l : List Nat) (N : Mat) :
    (l.foldl (fun N r => if getE N r col = 0 then N
      else rowOpSub N r (getE N r col / pv) prow) N).length = N.length := by
  refine foldl_preserve _ (fun N' => N'.length = N.length) l N
    (fun y b _ hy => ?_) rfl
  show (if getE y b col = 0 then y
    else rowOpSub y b (getE y b col / pv) prow).length = N.length
  by_cases hb : getE y b col = 0
  · rw [if_pos hb]; exact hy
  · rw [if_neg hb, rowOpSub_length]; exact hy

/-- A column that is zero in the pivot row and zero below row `kk < prow`
stays zero below row `kk` through the elimination fold. -/
theorem elimFold_preserve_zero_below (col prow : Nat) (pv : ℚ) (c kk : Nat)
    (hkk : kk < prow) :
    ∀ (l : List Nat) (N : Mat), (∀ r ∈ l, prow < r) →
      (∀ r, kk < r → getE N r c = 0) →
      ∀ r, kk < r →
        getE (l.foldl (fun N r => if getE N r col = 0 then N
          else rowOpSub N r (getE N r col / pv) prow) N) r c = 0 := by
  intro l N hl hz
  refine foldl_preserve _ (fun N' => ∀ r, kk < r → getE N' r c = 0) l N
    (fun y b hb hy => ?_) hz
  intro r hr
  by_cases hbz : getE y b col = 0
  · rw [if_pos hbz]; exact hy r hr
  · rw [if_neg hbz]
    rcases eq_or_ne r b with rfl | hrb
    · by_cases hrlen : r < y.length
      · rw [rowOpSub_getE_self _ _ _ _ _ hrlen]
        split_ifs with hc
        · rw [hy r hr, hy prow (by omega), mul_zero, sub_zero]
        · rfl
      · rw [getE_of_ge_length (by rw [rowOpSub_length]; omega) c]
    · rw [getE, rowOpSub_getD_other _ _ _ _ _ hrb]
      exact hy r hr

/-- After the elimination fold, every row of the index list has a zero
entry in the pivot column, provided the pivot value is the pivot row's
entry and is nonzero. -/
theorem elimFold_zero_in_col (col prow : Nat) (pv : ℚ) (hpv : pv ≠ 0) :
    ∀ (l : List Nat) (N : Mat), (∀ r ∈ l, prow < r) → l.Nodup →
      getE N prow col = pv →
      ∀ r ∈ l,
        getE (l.foldl (fun N r => if getE N r col = 0 then N
          else rowOpSub N r (getE N r col / pv) prow) N) r col = 0 := by
  intro l
  induction l with
  | nil => intro N _ _ _ r hr; exact absurd hr (by simp)
  | cons a l ih =>
    intro N hl hnd hprow r hr
    rw [List.foldl_cons]
    have hane : prow ≠ a := by
      have := hl a (List.mem_cons_self a l)
      omega
    have hstep_prow : getE (if getE N a col = 0 then N
        else rowOpSub N a (getE N a col / pv) prow) prow col = pv := by
      by_cases haz : getE N a col = 0
      · rw [if_pos haz]; exact hprow
      · rw [if_neg haz]
        have h3 : getE (rowOpSub N a (getE N a col / pv) prow) prow col
            = getE N prow col :=
          congrArg (fun row => row.getD col 0)
            (rowOpSub_getD_other N a (getE N a col / pv) prow prow hane)
        rw [h3]; exact hprow
    rcases List.mem_cons.mp hr with heq | hrl
    · subst heq
      -- row `r`'s own step clears its entry; later steps skip the row
      rw [elimFold_getE_not_mem col prow pv l _ r (List.Nodup.not_mem hnd) col]
      by_cases haz : getE N r col = 0
      · rw [if_pos haz]; exact haz
      · rw [if_neg haz]
        have hrlen : r < N.length := by
          by_contra hge
          exact haz (getE_of_ge_length (by omega) col)
        have hclen : col < (N.getD r []).length := by
          by_contra hge
          refine haz ?_
          rw [getE, List.getD_eq_getElem?_getD (N.getD r []) col 0,
            List.getElem?_eq_none (by omega)]
          rfl
        rw [rowOpSub_getE_self _ _ _ _ _ hrlen, if_pos hclen, hprow,
          div_mul_cancel₀ _ hpv, sub_self]
    · exact ih _ (fun r' h => hl r' (List.mem_cons_of_mem a h))
        (List.Nodup.of_cons hnd) hstep_prow r hrl

/-! ## The `ref` loop invariant -/

/-- Invariant of `ref`'s column loop after the columns `0 .. c-1` have been
processed. -/
structure RefInv (m c : Nat) (st : RefState) : Prop where
  len : st.M.length = m
  prEq : st.pivot_row = st.pivot_cols.length
  prLe : st.pivot_row ≤ m
  colsLt : ∀ x ∈ st.pivot_cols, x < c
  mono : st.pivot_cols.Pairwise (· < ·)
  zeroBelow : ∀ k (hk : k < st.pivot_cols.length), ∀ r, k < r →
    getE st.M r (st.pivot_cols.get ⟨k, hk⟩) = 0
  pivotNz : ∀ k (hk : k < st.pivot_cols.length),
    getE st.M k (st.pivot_cols.get ⟨k, hk⟩) ≠ 0

theorem refStep_eq_guard {m : Nat} {st : RefState} {col : Nat}
    (hge : st.pivot_row ≥ m) : refStep m st col = st := by
  rw [refStep, if_pos hge]

theorem refStep_eq_none {m : Nat} {st : RefState} {col : Nat}
    (hge : ¬ st.pivot_row ≥ m)
    (hfind : (List.range' st.pivot_row (m - st.pivot_row)).find?
      (fun r => decide (getE st.M r col ≠ 0)) = none) :
    refStep m st col = st := by
  rw [refStep, if_neg hge]
  simp only [hfind]

theorem refStep_eq_some {m : Nat} {st : RefState} {col pivot : Nat}
    (hge : ¬ st.pivot_row ≥ m)
    (hfind : (List.range' st.pivot_row (m - st.pivot_row)).find?
      (fun r => decide (getE st.M r col ≠ 0)) = some pivot) :
    refStep m st col =
      ⟨elimBelow
          (if pivot ≠ st.pivot_row then rowSwap st.M pivot st.pivot_row
            else st.M)
          st.pivot_row col
          (getE (if pivot ≠ st.pivot_row then rowSwap st.M pivot st.pivot_row
            else st.M) st.pivot_row col) m,
        st.pivot_row + 1, st.pivot_cols ++ [col]⟩ := by
  rw [refStep, if_neg hge]
  simp only [hfind]

theorem get_append_last {α : Type} (l : List α) (a : α) (k : Nat)
    (hk : k < (l ++ [a]).length) (hkeq : k = l.length) :
    (l ++ [a]).get ⟨k, hk⟩ = a := by
  subst hkeq
  have h1 : (l ++ [a]).get ⟨l.length, hk⟩ = (l ++ [a]).getD l.length a := by
    rw [List.getD_eq_getElem?_getD, List.getElem?_eq_getElem hk]
    rfl
  rw [h1, List.getD_eq_getElem?_getD, List.getElem?_append_right (le_refl _)]
  simp

theorem get_append_first {α : Type} (l l2 : List α) (k : Nat)
    (hk : k < (l ++ l2).length) (hkl : k < l.length) :
    (l ++ l2).get ⟨k, hk⟩ = l.get ⟨k, hkl⟩ :=
  List.get_append k hkl

/-- The pivot-found case of `refStep` preserves the invariant.  `M`, `pr`,
`pcs` are the current matrix, pivot row and pivot columns; `pivot` is the
row the pivot search found for column `c`. -/
theorem refStep_inv_some {m c pivot : Nat} {M : Mat} {pr : Nat}
    {pcs : List Nat} (h : RefInv m c ⟨M, pr, pcs⟩) (hplow : pr ≤ pivot)
    (hpm : pivot < m) (hpnz : getE M pivot c ≠ 0) :
    RefInv m (c + 1)
      ⟨elimBelow (if pivot ≠ pr then rowSwap M pivot pr else M) pr c
          (getE (if pivot ≠ pr then rowSwap M pivot pr else M) pr c) m,
        pr + 1, pcs ++ [c]⟩ := by
  have hlen : M.length = m := h.len
  have hprEq : pr = pcs.length := h.prEq
  have hcolsLt : ∀ x ∈ pcs, x < c := h.colsLt
  have hmono : pcs.Pairwise (· < ·) := h.mono
  have hzb : ∀ k (hk : k < pcs.length), ∀ r, k < r →
      getE M r (pcs.get ⟨k, hk⟩) = 0 := h.zeroBelow
  have hpz : ∀ k (hk : k < pcs.length),
      getE M k (pcs.get ⟨k, hk⟩) ≠ 0 := h.pivotNz
  have hprm : pr < m := by omega
  have hM1len : (if pivot ≠ pr then rowSwap M pivot pr else M).length = m := by
    split_ifs
    · rw [rowSwap_length, hlen]
    · exact hlen
  have hM1getE_lt : ∀ q, q < pr → ∀ cc,
      getE (if pivot ≠ pr then rowSwap M pivot pr else M) q cc
        = getE M q cc := by
    intro q hq cc
    split_ifs with hne
    · exact congrArg (fun row => row.getD cc 0)
        (rowSwap_getD_other M pivot pr q (by omega) (by omega))
    · rfl
  have hM1pivot : getE (if pivot ≠ pr then rowSwap M pivot pr else M) pr c
      ≠ 0 := by
    split_ifs with hne
    · have h2 : getE (rowSwap M pivot pr) pr c = getE M pivot c :=
        congrArg (fun row => row.getD c 0)
          (rowSwap_getD_fst M pivot pr (by omega))
      rw [h2]; exact hpnz
    · have : pivot = pr := by omega
      rw [← this]; exact hpnz
  have hM1zeroBelow : ∀ k (hk : k < pcs.length), ∀ r, k < r →
      getE (if pivot ≠ pr then rowSwap M pivot pr else M) r
        (pcs.get ⟨k, hk⟩) = 0 := by
    intro k hk r hr
    have hkP : k < pr := by omega
    split_ifs with hne
    · rcases eq_or_ne r pr with rfl | hrP
      · have e1 : getE (rowSwap M pivot r) r (pcs.get ⟨k, hk⟩)
            = getE M pivot (pcs.get ⟨k, hk⟩) :=
          congrArg (fun row => row.getD (pcs.get ⟨k, hk⟩) 0)
            (rowSwap_getD_fst M pivot r (by omega))
        rw [e1]
        exact hzb k hk pivot (by omega)
      · rcases eq_or_ne r pivot with rfl | hrpiv
        · have e1 : getE (rowSwap M r pr) r (pcs.get ⟨k, hk⟩)
              = getE M pr (pcs.get ⟨k, hk⟩) :=
            congrArg (fun row => row.getD (pcs.get ⟨k, hk⟩) 0)
              (rowSwap_getD_snd M r pr (by omega) (by omega))
          rw [e1]
          exact hzb k hk pr (by omega)
        · have e1 : getE (rowSwap M pivot pr) r (pcs.get ⟨k, hk⟩)
              = getE M r (pcs.get ⟨k, hk⟩) :=
            congrArg (fun row => row.getD (pcs.get ⟨k, hk⟩) 0)
              (rowSwap_getD_other M pivot pr r hrpiv hrP)
          rw [e1]
          exact hzb k hk r hr
    · exact hzb k hk r hr
  -- elimination below the pivot
  have hlmem : ∀ r ∈ List.range' (pr + 1) (m - (pr + 1)), pr < r ∧ r < m := by
    intro r hrl
    rw [List.mem_range'_1] at hrl
    omega
  have hM2len : ∀ (N : Mat) (pv : ℚ), N.length = m →
      (elimBelow N pr c pv m).length = m := by
    intro N pv hN
    rw [elimBelow, elimFold_length, hN]
  have hM2rows_le : ∀ (N : Mat) (pv : ℚ) (q : Nat), q ≤ pr → ∀ cc,
      getE (elimBelow N pr c pv m) q cc = getE N q cc := by
    intro N pv q hq cc
    rw [elimBelow]
    exact elimFold_getE_not_mem c pr pv _ N q
      (fun hmem => by have := (hlmem q hmem).1; omega) cc
  refine ⟨hM2len _ _ hM1len, by simp [hprEq, List.length_append], by show pr + 1 ≤ m; omega, ?_, ?_, ?_, ?_⟩
  · intro x hx
    rcases List.mem_append.mp hx with hx1 | hx2
    · exact Nat.lt_succ_of_lt (hcolsLt x hx1)
    · have : x = c := by simpa using hx2
      omega
  · rw [List.pairwise_append]
    refine ⟨hmono, List.pairwise_singleton _ _, fun a ha b hb => ?_⟩
    have : b = c := by simpa using hb
    rw [this]
    exact hcolsLt a ha
  · -- zeros below every pivot
    intro k hk r hr
    rcases Nat.lt_or_ge k pcs.length with hkold | hknew
    · rw [get_append_first pcs [c] k hk hkold, elimBelow]
      refine elimFold_preserve_zero_below c pr _ (pcs.get ⟨k, hkold⟩) k
        (by omega) _ _ (fun r' hr' => (hlmem r' hr').1) ?_ r hr
      intro r' hr'
      exact hM1zeroBelow k hkold r' hr'
    · have hkeq : k = pcs.length := by
        have hklen : k < pcs.length + 1 := by simpa using hk
        omega
      rw [get_append_last pcs c k hk hkeq]
      have hrP : pr < r := by omega
      rcases Nat.lt_or_ge r m with hrm | hrm
      · rw [elimBelow]
        refine elimFold_zero_in_col c pr _ hM1pivot _ _
          (fun r' hr' => (hlmem r' hr').1) (List.nodup_range' _ _) rfl r ?_
        rw [List.mem_range'_1]
        omega
      · exact getE_of_ge_length (by rw [hM2len _ _ hM1len]; omega) _
  · -- pivot entries stay nonzero
    intro k hk
    rcases Nat.lt_or_ge k pcs.length with hkold | hknew
    · rw [get_append_first pcs [c] k hk hkold,
        hM2rows_le _ _ k (by omega), hM1getE_lt k (by omega)]
      exact hpz k hkold
    · have hkeq : k = pcs.length := by
        have hklen : k < pcs.length + 1 := by simpa using hk
        omega
      rw [get_append_last pcs c k hk hkeq, hkeq, ← hprEq,
        hM2rows_le _ _ pr (le_refl pr)]
      exact hM1pivot

/-- One column step preserves the invariant, advancing the column bound. -/
theorem refStep_inv {m c : Nat} {st : RefState} (h : RefInv m c st) :
    RefInv m (c + 1) (refStep m st c) := by
  by_cases hge : st.pivot_row ≥ m
  · rw [refStep_eq_guard hge]
    exact { h with colsLt := fun x hx => Nat.lt_succ_of_lt (h.colsLt x hx) }
  cases hfind : (List.range' st.pivot_row (m - st.pivot_row)).find?
      (fun r => decide (getE st.M r c ≠ 0)) with
  | none =>
    rw [refStep_eq_none hge hfind]
    exact { h with colsLt := fun x hx => Nat.lt_succ_of_lt (h.colsLt x hx) }
  | some pivot =>
    rw [refStep_eq_some hge hfind]
    obtain ⟨hpred, hplow, hphigh, _⟩ := find?_range'_some hfind
    exact refStep_inv_some h hplow (by omega) (by simpa using hpred)

/-- The invariant holds after processing any prefix of the columns. -/
theorem ref_fold_inv (A : Mat) :
    ∀ c, RefInv A.length c
      ((List.range c).foldl (refStep A.length) ⟨A, 0, []⟩) := by
  intro c
  induction c with
  | zero =>
    refine ⟨rfl, rfl, Nat.zero_le _, ?_, List.Pairwise.nil, ?_, ?_⟩
    · intro x hx; exact absurd hx (by simp)
    · intro k hk; exact absurd hk (by simp)
    · intro k hk; exact absurd hk (by simp)
  | succ c ih =>
    rw [List.range_succ, List.foldl_append, List.foldl_cons, List.foldl_nil]
    exact refStep_inv ih

/-- C3: for every input matrix, `ref` returns a matrix in row echelon form
with respect to its returned pivot columns: the `k`-th pivot column's
entry in row `k` is nonzero while every entry strictly below row `k` in
that column is exactly zero; the pivot columns are strictly increasing and
number at most `min(rows, cols)`. -/
theorem ref_echelon (A : Mat) :
    (ref A).2.Pairwise (· < ·) ∧
    (ref A).2.length ≤ min A.length (matCols A) ∧
    ∀ k (hk : k < (ref A).2.length),
      getE (ref A).1 k ((ref A).2.get ⟨k, hk⟩) ≠ 0 ∧
      ∀ r, k < r → getE (ref A).1 r ((ref A).2.get ⟨k, hk⟩) = 0 := by
  have hinv := ref_fold_inv A (matCols A)
  refine ⟨hinv.mono, ?_, fun k hk => ⟨hinv.pivotNz k hk, hinv.zeroBelow k hk⟩⟩
  have hnd : ((List.range (matCols A)).foldl (refStep A.length)
      ⟨A, 0, []⟩).pivot_cols.Nodup := hinv.mono.nodup
  have hsub : ((List.range (matCols A)).foldl (refStep A.length)
      ⟨A, 0, []⟩).pivot_cols.toFinset ⊆ Finset.range (matCols A) := by
    intro x hx
    exact Finset.mem_range.mpr (hinv.colsLt x (List.mem_toFinset.mp hx))
  have hlen2 : (ref A).2.length ≤ matCols A := by
    have h1 := List.toFinset_card_of_nodup hnd
    have h2 := Finset.card_le_card hsub
    rw [Finset.card_range] at h2
    show ((List.range (matCols A)).foldl (refStep A.length)
      ⟨A, 0, []⟩).pivot_cols.length ≤ matCols A
    omega
  have hlen1 : (ref A).2.length ≤ A.length := by
    show ((List.range (matCols A)).foldl (refStep A.length)
      ⟨A, 0, []⟩).pivot_cols.length ≤ A.length
    have h1 := hinv.prEq
    have h2 := hinv.prLe
    omega
  exact le_min hlen1 hlen2

/-- C3 witness: the echelon properties on a concrete 3×3 matrix. -/
theorem ref_echelon_witness :
    (ref [[0, 2, 1], [1, 1, 1], [2, 2, 2]]).2.Pairwise (· < ·) ∧
    (ref [[0, 2, 1], [1, 1, 1], [2, 2, 2]]).2.length
      ≤ min ([[0, 2, 1], [1, 1, 1], [2, 2, 2]] : Mat).length
          (matCols [[0, 2, 1], [1, 1, 1], [2, 2, 2]]) ∧
    ∀ k (hk : k < (ref [[0, 2, 1], [1, 1, 1], [2, 2, 2]]).2.length),
      getE (ref [[0, 2, 1], [1, 1, 1], [2, 2, 2]]).1 k
        ((ref [[0, 2, 1], [1, 1, 1], [2, 2, 2]]).2.get ⟨k, hk⟩) ≠ 0 ∧
      ∀ r, k < r →
        getE (ref [[0, 2, 1], [1, 1, 1], [2, 2, 2]]).1 r
          ((ref [[0, 2, 1], [1, 1, 1], [2, 2, 2]]).2.get ⟨k, hk⟩) = 0 :=
  ref_echelon [[0, 2, 1], [1, 1, 1], [2, 2, 2]]

/-! ## Claim C6: idempotence of `ref` on echelon matrices -/

/-- The leading (first nonzero) column of row `i` of `A`, scanning the
matrix's `matCols A` columns. -/
def leadOf (A : Mat) (i : Nat) : Option Nat :=
  pivotColForRow (A.getD i []) (matCols A)

/-- Row `i` has a leading column `< c`. -/
def leadLtB (A : Mat) (i c : Nat) : Bool :=
  match leadOf A i with
  | some p => decide (p < c)
  | none => false

/-- Number of rows whose leading column is `< c`. -/
def rowsLt (A : Mat) (c : Nat) : Nat :=
  ((List.range A.length).filter fun i => leadLtB A i c).length

/-- The leading columns of the first `k` rows. -/
def pcsUpTo (A : Mat) (k : Nat) : List Nat :=
  (List.range k).filterMap (leadOf A)

/-- The leading-entry columns of the (nonzero) rows of `A`. -/
def leadingCols (A : Mat) : List Nat :=
  A.filterMap fun row => pivotColForRow row (matCols A)

theorem filter_range_front (p : Nat → Bool) :
    ∀ (m : Nat), (∀ i j, i < j → j < m → p j = true → p i = true) →
      (List.range m).filter p
        = List.range ((List.range m).filter p).length := by
  intro m
  induction m with
  | zero => intro _; rfl
  | succ m ih =>
    intro hdc
    rw [List.range_succ, List.filter_append]
    by_cases hm : p m = true
    · have hall : (List.range m).filter p = List.range m :=
        List.filter_eq_self.mpr fun a ha =>
          hdc a m (List.mem_range.mp ha) (Nat.lt_succ_self m) hm
      have h1 : List.filter p [m] = [m] := by simp [hm]
      rw [hall, h1, ← List.range_succ]
      congr 1
      rw [List.length_range]
    · have hm' : p m = false := by
        cases hpm : p m
        · rfl
        · exact absurd hpm hm
      have ih' := ih fun i j hij hjm hpj => hdc i j hij (by omega) hpj
      have h0 : List.filter p [m] = [] := by simp [hm']
      simp only [h0, List.append_nil]
      exact ih'

theorem filter_range_eq_range (p : Nat → Bool) :
    ∀ (m K : Nat), K ≤ m → (∀ i, i < m → (p i = true ↔ i < K)) →
      (List.range m).filter p = List.range K := by
  intro m
  induction m with
  | zero =>
    intro K hK _
    interval_cases K
    rfl
  | succ m ih =>
    intro K hK hiff
    rw [List.range_succ, List.filter_append]
    rcases Nat.lt_or_ge m K with hmK | hmK
    · have hKeq : K = m + 1 := by omega
      have hm : p m = true := (hiff m (Nat.lt_succ_self m)).mpr hmK
      have hall : (List.range m).filter p = List.range m :=
        List.filter_eq_self.mpr fun a ha => by
          have ham := List.mem_range.mp ha
          exact (hiff a (by omega)).mpr (by omega)
      have h1 : List.filter p [m] = [m] := by simp [hm]
      rw [hall, h1, ← List.range_succ, hKeq]
    · have hm : p m = false := by
        cases hpm : p m
        · rfl
        · exact absurd ((hiff m (Nat.lt_succ_self m)).mp hpm) (by omega)
      have ih' := ih K (by omega) fun i hi => hiff i (by omega)
      simp [hm, ih']

/-- If every row of the index list already has a zero entry in the pivot
column, the elimination loop is the identity. -/
theorem elimFold_id (col prow : Nat) (pv : ℚ) :
    ∀ (l : List Nat) (N : Mat), (∀ r ∈ l, getE N r col = 0) →
      l.foldl (fun N r => if getE N r col = 0 then N
        else rowOpSub N r (getE N r col / pv) prow) N = N := by
  intro l
  induction l with
  | nil => intro N _; rfl
  | cons a l ih =>
    intro N hz
    rw [List.foldl_cons, if_pos (hz a (List.mem_cons_self a l))]
    exact ih N fun r hr => hz r (List.mem_cons_of_mem a hr)

theorem map_getD_range {α : Type} (l : List α) (d : α) :
    (List.range l.length).map (fun i => l.getD i d) = l := by
  refine List.ext_getElem (by simp) fun n h1 h2 => ?_
  rw [List.getElem_map, List.getElem_range,
    List.getD_eq_getElem?_getD, List.getElem?_eq_getElem h2]
  rfl

theorem leadingCols_eq_filterMap_range (A : Mat) :
    leadingCols A = (List.range A.length).filterMap (leadOf A) := by
  have h1 : (List.range A.length).filterMap (leadOf A)
      = ((List.range A.length).map (fun i => A.getD i [])).filterMap
          (fun row => pivotColForRow row (matCols A)) := by
    rw [List.filterMap_map]
    rfl
  rw [leadingCols, h1, map_getD_range]

theorem leadLtB_downward (A : Mat) (hech : IsEchelonMat A (matCols A))
    (c' : Nat) : ∀ i j, i < j → j < A.length →
      leadLtB A j c' = true → leadLtB A i c' = true := by
  intro i j hij hjm hpj
  cases hj : leadOf A j with
  | none => rw [leadLtB, hj] at hpj; exact absurd hpj (by simp)
  | some p =>
    rw [leadLtB, hj] at hpj
    have hpc : p < c' := of_decide_eq_true hpj
    obtain ⟨q, hq, hqp⟩ := hech j hjm i hij p hj
    have hq' : leadOf A i = some q := hq
    rw [leadLtB, hq']
    exact decide_eq_true (by omega)

theorem leadLtB_char (A : Mat) (hech : IsEchelonMat A (matCols A))
    (c' : Nat) : ∀ i, i < A.length →
      (leadLtB A i c' = true ↔ i < rowsLt A c') := by
  intro i him
  constructor
  · intro hp
    have hmem : i ∈ (List.range A.length).filter (fun i => leadLtB A i c') :=
      List.mem_filter.mpr ⟨List.mem_range.mpr him, hp⟩
    rw [filter_range_front _ _ (leadLtB_downward A hech c')] at hmem
    exact List.mem_range.mp hmem
  · intro hi
    have hmem : i ∈ List.range (rowsLt A c') := List.mem_range.mpr hi
    rw [rowsLt, ← filter_range_front _ _ (leadLtB_downward A hech c')]
      at hmem
    exact (List.mem_filter.mp hmem).2

theorem rowsLt_le (A : Mat) (c' : Nat) : rowsLt A c' ≤ A.length := by
  have h := List.length_filter_le (fun i => leadLtB A i c') (List.range A.length)
  rw [List.length_range] at h
  exact h

/-- On an echelon matrix, after processing the first `c` columns `ref`'s
state is: matrix unchanged, pivot row = number of rows with leading column
`< c`, pivot columns = the leading columns of those rows. -/
theorem ref_fold_echelon (A : Mat) (hech : IsEchelonMat A (matCols A)) :
    ∀ c, c ≤ matCols A →
      (List.range c).foldl (refStep A.length) ⟨A, 0, []⟩
        = ⟨A, rowsLt A c, pcsUpTo A (rowsLt A c)⟩ := by
  intro c
  induction c with
  | zero =>
    intro _
    have h00 : rowsLt A 0 = 0 := by
      rw [rowsLt]
      have hnil : (List.range A.length).filter (fun i => leadLtB A i 0)
          = [] := by
        rw [List.filter_eq_nil_iff]
        intro a _
        cases ha : leadOf A a <;> simp [leadLtB, ha]
      rw [hnil]
      rfl
    rw [h00]
    rfl
  | succ c ih =>
    intro hc1
    have hcn : c < matCols A := by omega
    rw [List.range_succ, List.foldl_append, List.foldl_cons, List.foldl_nil,
      ih (by omega)]
    by_cases hB : ∃ i, i < A.length ∧ leadOf A i = some c
    · obtain ⟨i0, hi0m, hi0⟩ := hB
      have hi0ge : ¬ i0 < rowsLt A c := by
        intro hlt
        have h1 := (leadLtB_char A hech c i0 hi0m).mpr hlt
        rw [leadLtB, hi0] at h1
        exact absurd (of_decide_eq_true h1) (lt_irrefl c)
      have hi0eq : i0 = rowsLt A c := by
        by_contra hne
        have hcnt_lt : rowsLt A c < i0 := by omega
        obtain ⟨q, hq, hqc⟩ := hech i0 hi0m (rowsLt A c) hcnt_lt c hi0
        have hq' : leadOf A (rowsLt A c) = some q := hq
        have h1 : leadLtB A (rowsLt A c) c = true := by
          rw [leadLtB, hq']
          exact decide_eq_true hqc
        have h2 := (leadLtB_char A hech c (rowsLt A c) (by omega)).mp h1
        omega
      rw [hi0eq] at hi0
      have hi0m' : rowsLt A c < A.length := by omega
      obtain ⟨-, hnz, -⟩ := pivotColForRow_some hi0
      have hguard : ¬ rowsLt A c ≥ A.length := by omega
      have hfind : (List.range' (rowsLt A c) (A.length - rowsLt A c)).find?
          (fun r => decide (getE A r c ≠ 0)) = some (rowsLt A c) := by
        have hsz : A.length - rowsLt A c = (A.length - rowsLt A c - 1) + 1 :=
          by omega
        rw [hsz, List.range'_succ]
        exact List.find?_cons_of_pos _ (decide_eq_true hnz)
      rw [refStep_eq_some hguard hfind]
      have hswap : (if rowsLt A c ≠ rowsLt A c
          then rowSwap A (rowsLt A c) (rowsLt A c) else A) = A :=
        if_neg (fun h => h rfl)
      rw [hswap]
      have helim : elimBelow A (rowsLt A c) c (getE A (rowsLt A c) c)
          A.length = A := by
        rw [elimBelow]
        refine elimFold_id _ _ _ _ _ ?_
        intro r hr
        rw [List.mem_range'_1] at hr
        cases hlr : leadOf A r with
        | none => exact pivotColForRow_none hlr c hcn
        | some p =>
          obtain ⟨q2, hq2, hq2lt⟩ := hech r (by omega) (rowsLt A c)
            (by omega) p hlr
          have hq2c : q2 = c := Option.some.inj (hq2.symm.trans hi0)
          obtain ⟨-, -, hzb2⟩ := pivotColForRow_some hlr
          exact hzb2 c (by omega)
      rw [helim]
      have hcnt1 : rowsLt A (c + 1) = rowsLt A c + 1 := by
        have hchar1 : ∀ i, i < A.length →
            (leadLtB A i (c + 1) = true ↔ i < rowsLt A c + 1) := by
          intro i him
          constructor
          · intro hp
            by_contra hge
            cases hli : leadOf A i with
            | none => rw [leadLtB, hli] at hp; exact absurd hp (by simp)
            | some p =>
              rw [leadLtB, hli] at hp
              have hpc1 : p < c + 1 := of_decide_eq_true hp
              obtain ⟨q, hq, hqlt⟩ := hech i him (rowsLt A c) (by omega) p hli
              have hqc : q = c := Option.some.inj (hq.symm.trans hi0)
              omega
          · intro hi
            rcases Nat.lt_or_ge i (rowsLt A c) with hilt | hige
            · have h1 := (leadLtB_char A hech c i him).mpr hilt
              cases hli : leadOf A i with
              | none => rw [leadLtB, hli] at h1; exact absurd h1 (by simp)
              | some p =>
                rw [leadLtB, hli] at h1
                have := of_decide_eq_true h1
                rw [leadLtB, hli]
                exact decide_eq_true (by omega)
            · have : i = rowsLt A c := by omega
              rw [this, leadLtB, hi0]
              exact decide_eq_true (by omega)
        have h2 := filter_range_eq_range (fun i => leadLtB A i (c + 1))
          A.length (rowsLt A c + 1) (by omega) hchar1
        rw [rowsLt, h2, List.length_range]
      have hpcs1 : pcsUpTo A (rowsLt A c + 1)
          = pcsUpTo A (rowsLt A c) ++ [c] := by
        rw [pcsUpTo, pcsUpTo, List.range_succ, List.filterMap_append]
        congr 1
        rw [List.filterMap_cons, hi0]
        rfl
      rw [hcnt1, hpcs1]
    · push_neg at hB
      have hcnt1 : rowsLt A (c + 1) = rowsLt A c := by
        rw [rowsLt, rowsLt]
        have hcong : ∀ i ∈ List.range A.length,
            leadLtB A i (c + 1) = leadLtB A i c := by
          intro i hi
          cases hli : leadOf A i with
          | none => rw [leadLtB, hli, leadLtB, hli]
          | some p =>
            rw [leadLtB, hli, leadLtB, hli]
            rw [decide_eq_decide]
            have hpne : p ≠ c := by
              intro hpe
              exact hB i (List.mem_range.mp hi) (by rw [hli, hpe])
            omega
        rw [List.filter_congr hcong]
      have hstep : refStep A.length
          ⟨A, rowsLt A c, pcsUpTo A (rowsLt A c)⟩ c
            = ⟨A, rowsLt A c, pcsUpTo A (rowsLt A c)⟩ := by
        by_cases hge : rowsLt A c ≥ A.length
        · exact refStep_eq_guard hge
        · refine refStep_eq_none hge ?_
          rw [List.find?_eq_none]
          intro r hr
          rw [List.mem_range'_1] at hr
          dsimp only at hr
          have hz : getE A r c = 0 := by
            cases hlr : leadOf A r with
            | none => exact pivotColForRow_none hlr c hcn
            | some p =>
              have hfalse : leadLtB A r c = false := by
                cases hb : leadLtB A r c
                · rfl
                · have := (leadLtB_char A hech c r (by omega)).mp hb
                  omega
              rw [leadLtB, hlr] at hfalse
              have hpge : ¬ p < c := by simpa using hfalse
              have hpne : p ≠ c := fun hpe => hB r (by omega) (by rw [hlr, hpe])
              obtain ⟨-, -, hzb2⟩ := pivotColForRow_some hlr
              exact hzb2 c (by omega)
          simp [hz]
      rw [hstep, hcnt1]

/-- C6: applying `ref` to a matrix that is already in row echelon form
returns the matrix unchanged, with the pivot columns being exactly the
leading-entry columns of its rows. -/
theorem ref_idempotent_on_echelon (A : Mat)
    (hech : IsEchelonMat A (matCols A)) : ref A = (A, leadingCols A) := by
  have h := ref_fold_echelon A hech (matCols A) (le_refl _)
  have h0 : ref A = (((List.range (matCols A)).foldl (refStep A.length)
      ⟨A, 0, []⟩).M, ((List.range (matCols A)).foldl (refStep A.length)
      ⟨A, 0, []⟩).pivot_cols) := rfl
  rw [h0, h]
  have hfinal : pcsUpTo A (rowsLt A (matCols A)) = leadingCols A := by
    rw [leadingCols_eq_filterMap_range, pcsUpTo]
    have hlep : rowsLt A (matCols A) ≤ A.length := rowsLt_le A (matCols A)
    rw [show A.length = rowsLt A (matCols A)
        + (A.length - rowsLt A (matCols A)) from by omega,
      List.range_add, List.filterMap_append, List.filterMap_map]
    have hnil : (List.range (A.length - rowsLt A (matCols A))).filterMap
        (leadOf A ∘ fun x => rowsLt A (matCols A) + x) = [] := by
      rw [List.filterMap_eq_nil_iff]
      intro a ha
      rw [List.mem_range] at ha
      show leadOf A (rowsLt A (matCols A) + a) = none
      cases hla : leadOf A (rowsLt A (matCols A) + a) with
      | none => rfl
      | some p =>
        obtain ⟨hpn, -, -⟩ := pivotColForRow_some hla
        have h1 : leadLtB A (rowsLt A (matCols A) + a) (matCols A) = true := by
          rw [leadLtB, hla]
          exact decide_eq_true hpn
        have h2 := (leadLtB_char A hech (matCols A)
          (rowsLt A (matCols A) + a) (by omega)).mp h1
        omega
    rw [hnil, List.append_nil]
  rw [hfinal]

/-- C6 witness: a concrete echelon matrix is returned unchanged with its
leading columns. -/
theorem ref_idempotent_on_echelon_witness :
    IsEchelonMat [[2, 1, 3], [0, 0, 5], [0, 0, 0]]
        (matCols [[2, 1, 3], [0, 0, 5], [0, 0, 0]]) ∧
      ref [[2, 1, 3], [0, 0, 5], [0, 0, 0]]
        = ([[2, 1, 3], [0, 0, 5], [0, 0, 0]],
            leadingCols [[2, 1, 3], [0, 0, 5], [0, 0, 0]]) :=
  ⟨(isEchelonMat_iff _ _).mpr (by decide),
    ref_idempotent_on_echelon [[2, 1, 3], [0, 0, 5], [0, 0, 0]]
      ((isEchelonMat_iff _ _).mpr (by decide))⟩

/-! ## Claim C5: row-space and solution-set preservation -/

theorem getD_mem_of_lt {M : Mat} {r : Nat} (h : r < M.length) :
    M.getD r [] ∈ M := by
  rw [List.getD_eq_getElem?_getD, List.getElem?_eq_getElem h]
  exact List.getElem_mem h

theorem getE_eq_zero_of_ge_cols {M : Mat} {n : Nat} (hrect : Rect M n)
    {r j : Nat} (hj : n ≤ j) : getE M r j = 0 := by
  rcases Nat.lt_or_ge r M.length with hr | hr
  · have hlen : (M.getD r []).length = n := hrect _ (getD_mem_of_lt hr)
    rw [getE, List.getD_eq_getElem?_getD, List.getElem?_eq_none (by omega)]
    rfl
  · exact getE_of_ge_length hr j

theorem rect_rowSwap {M : Mat} {n : Nat} (hrect : Rect M n) {a b : Nat}
    (ha : a < M.length) (hb : b < M.length) : Rect (rowSwap M a b) n := by
  intro row hrow
  rw [rowSwap] at hrow
  rcases List.mem_or_eq_of_mem_set hrow with hrow1 | hrow2
  · rcases List.mem_or_eq_of_mem_set hrow1 with hrow3 | hrow4
    · exact hrect row hrow3
    · rw [hrow4]
      exact hrect _ (getD_mem_of_lt hb)
  · rw [hrow2]
    exact hrect _ (getD_mem_of_lt ha)

theorem rect_rowOpSub {M : Mat} {n : Nat} (hrect : Rect M n) {r : Nat}
    (hr : r < M.length) (f : ℚ) (prow : Nat) :
    Rect (rowOpSub M r f prow) n := by
  intro row hrow
  rw [rowOpSub] at hrow
  rcases List.mem_or_eq_of_mem_set hrow with hrow1 | hrow2
  · exact hrect row hrow1
  · rw [hrow2, List.length_map, List.length_range]
    exact hrect _ (getD_mem_of_lt hr)

theorem rowSet_rowSwap (M : Mat) (a b : Nat) (ha : a < M.length)
    (hb : b < M.length) (hab : a ≠ b) :
    rowSet (rowSwap M a b) = rowSet M := by
  ext v
  constructor
  · rintro ⟨i, hi, rfl⟩
    rw [rowSwap_length] at hi
    rcases eq_or_ne i a with rfl | hia
    · exact ⟨b, hb, funext fun j => congrArg (fun row => row.getD j 0)
        (rowSwap_getD_snd M i b ha hab)⟩
    · rcases eq_or_ne i b with rfl | hib
      · exact ⟨a, ha, funext fun j => congrArg (fun row => row.getD j 0)
          (rowSwap_getD_fst M a i hb)⟩
      · exact ⟨i, hi, funext fun j => congrArg (fun row => row.getD j 0)
          (rowSwap_getD_other M a b i hia hib)⟩
  · rintro ⟨i, hi, rfl⟩
    rcases eq_or_ne i a with rfl | hia
    · exact ⟨b, by rw [rowSwap_length]; exact hb,
        (funext fun j => congrArg (fun row => row.getD j 0)
          (rowSwap_getD_fst M i b hb)).symm⟩
    · rcases eq_or_ne i b with rfl | hib
      · exact ⟨a, by rw [rowSwap_length]; exact ha,
          (funext fun j => congrArg (fun row => row.getD j 0)
            (rowSwap_getD_snd M a i ha hab)).symm⟩
      · exact ⟨i, by rw [rowSwap_length]; exact hi,
          (funext fun j => congrArg (fun row => row.getD j 0)
            (rowSwap_getD_other M a b i hia hib)).symm⟩

theorem rowSpan_rowSwap (M : Mat) (a b : Nat) (ha : a < M.length)
    (hb : b < M.length) (hab : a ≠ b) :
    rowSpan (rowSwap M a b) = rowSpan M :=
  congrArg (Submodule.span ℚ) (rowSet_rowSwap M a b ha hb hab)

theorem eqSum_congr_rows {M M' : Mat} (nv : Nat) {i i' : Nat}
    (h : M'.getD i [] = M.getD i' []) (xv : Nat → ℚ) :
    eqSum M' nv i xv = eqSum M nv i' xv :=
  Finset.sum_congr rfl fun j _ => by
    rw [show getE M' i j = getE M i' j from
      congrArg (fun row => row.getD j 0) h]

theorem row_eqn_transfer {M M' : Mat} (nv : Nat) {i i' : Nat}
    (h : M'.getD i [] = M.getD i' []) (x : Nat → ℚ)
    (he : eqSum M' nv i x = getE M' i nv) :
    eqSum M nv i' x = getE M i' nv := by
  rw [← eqSum_congr_rows nv h x, he]
  exact congrArg (fun row => row.getD nv 0) h

theorem solSet_rowSwap (M : Mat) (nv a b : Nat) (ha : a < M.length)
    (hb : b < M.length) (hab : a ≠ b) :
    solSet (rowSwap M a b) nv = solSet M nv := by
  ext x
  simp only [solSet, Set.mem_setOf_eq, rowSwap_length]
  constructor
  · intro h i him
    rcases eq_or_ne i a with rfl | hia
    · exact row_eqn_transfer nv (rowSwap_getD_fst M i b hb) x (h b hb)
    · rcases eq_or_ne i b with rfl | hib
      · exact row_eqn_transfer nv (rowSwap_getD_snd M a i ha hab) x (h a ha)
      · exact row_eqn_transfer nv
          (rowSwap_getD_other M a b i hia hib) x (h i him)
  · intro h i him
    rcases eq_or_ne i a with rfl | hia
    · have hrow : (rowSwap M i b).getD i [] = M.getD b [] :=
        rowSwap_getD_snd M i b ha hab
      rw [eqSum_congr_rows nv hrow x,
        show getE (rowSwap M i b) i nv = getE M b nv from
          congrArg (fun row => row.getD nv 0) hrow]
      exact h b hb
    · rcases eq_or_ne i b with rfl | hib
      · have hrow : (rowSwap M a i).getD i [] = M.getD a [] :=
          rowSwap_getD_fst M a i hb
        rw [eqSum_congr_rows nv hrow x,
          show getE (rowSwap M a i) i nv = getE M a nv from
            congrArg (fun row => row.getD nv 0) hrow]
        exact h a ha
      · have hrow : (rowSwap M a b).getD i [] = M.getD i [] :=
          rowSwap_getD_other M a b i hia hib
        rw [eqSum_congr_rows nv hrow x,
          show getE (rowSwap M a b) i nv = getE M i nv from
            congrArg (fun row => row.getD nv 0) hrow]
        exact h i him

theorem rowVec_rowOpSub_other (M : Mat) (r : Nat) (f : ℚ) (prow i : Nat)
    (hi : i ≠ r) : rowVec (rowOpSub M r f prow) i = rowVec M i :=
  funext fun j => congrArg (fun row => row.getD j 0)
    (rowOpSub_getD_other M r f prow i hi)

theorem rowVec_rowOpSub_self (M : Mat) {n : Nat} (hrect : Rect M n)
    {r : Nat} (hr : r < M.length) (f : ℚ) (prow : Nat) :
    rowVec (rowOpSub M r f prow) r = rowVec M r - f • rowVec M prow := by
  have hlen : (M.getD r []).length = n := hrect _ (getD_mem_of_lt hr)
  funext j
  rw [Pi.sub_apply, Pi.smul_apply, smul_eq_mul]
  show getE (rowOpSub M r f prow) r j = rowVec M r j - f * rowVec M prow j
  rw [rowOpSub_getE_self M r f prow j hr]
  split_ifs with hj
  · rfl
  · show (0 : ℚ) = rowVec M r j - f * rowVec M prow j
    rw [show rowVec M r j = getE M r j from rfl,
      show rowVec M prow j = getE M prow j from rfl,
      getE_eq_zero_of_ge_cols hrect (by omega),
      getE_eq_zero_of_ge_cols hrect (by omega)]
    ring

theorem rowSpan_rowOpSub (M : Mat) {n : Nat} (hrect : Rect M n)
    {r prow : Nat} (hr : r < M.length) (hprow : prow < M.length)
    (hne : r ≠ prow) (f : ℚ) :
    rowSpan (rowOpSub M r f prow) = rowSpan M := by
  apply le_antisymm
  · rw [rowSpan, Submodule.span_le]
    rintro v ⟨i, hi, rfl⟩
    rw [rowOpSub_length] at hi
    rcases eq_or_ne i r with rfl | hir
    · rw [rowVec_rowOpSub_self M hrect hr f prow]
      exact Submodule.sub_mem _ (Submodule.subset_span ⟨i, hi, rfl⟩)
        (Submodule.smul_mem _ f (Submodule.subset_span ⟨prow, hprow, rfl⟩))
    · rw [rowVec_rowOpSub_other M r f prow i hir]
      exact Submodule.subset_span ⟨i, hi, rfl⟩
  · rw [rowSpan, Submodule.span_le]
    rintro v ⟨i, hi, rfl⟩
    rcases eq_or_ne i r with rfl | hir
    · have hexp : rowVec M i = rowVec (rowOpSub M i f prow) i
          + f • rowVec (rowOpSub M i f prow) prow := by
        rw [rowVec_rowOpSub_self M hrect hr f prow,
          rowVec_rowOpSub_other M i f prow prow (fun h => hne h.symm),
          sub_add_cancel]
      rw [hexp]
      exact Submodule.add_mem _
        (Submodule.subset_span ⟨i, by rw [rowOpSub_length]; exact hi, rfl⟩)
        (Submodule.smul_mem _ f (Submodule.subset_span
          ⟨prow, by rw [rowOpSub_length]; exact hprow, rfl⟩))
    · rw [← rowVec_rowOpSub_other M r f prow i hir]
      exact Submodule.subset_span
        ⟨i, by rw [rowOpSub_length]; exact hi, rfl⟩

theorem eqSum_sub_row (M : Mat) {n : Nat} (hrect : Rect M n) {nv : Nat}
    (hnv : nv < n) {r : Nat} (hr : r < M.length) (f : ℚ) (prow : Nat)
    (x : Nat → ℚ) :
    eqSum (rowOpSub M r f prow) nv r x
      = eqSum M nv r x - f * eqSum M nv prow x := by
  have hlen : (M.getD r []).length = n := hrect _ (getD_mem_of_lt hr)
  have hstep : ∀ j ∈ Finset.range nv,
      getE (rowOpSub M r f prow) r j * x j
        = getE M r j * x j - f * (getE M prow j * x j) := by
    intro j hj
    have hjn : j < n := by
      have := Finset.mem_range.mp hj
      omega
    rw [rowOpSub_getE_self M r f prow j hr, if_pos (by omega)]
    ring
  rw [eqSum, Finset.sum_congr rfl hstep, Finset.sum_sub_distrib,
    ← Finset.mul_sum]
  rfl

theorem getE_rowOpSub_rhs (M : Mat) {n : Nat} (hrect : Rect M n) {nv : Nat}
    (hnv : nv < n) {r : Nat} (hr : r < M.length) (f : ℚ) (prow : Nat) :
    getE (rowOpSub M r f prow) r nv = getE M r nv - f * getE M prow nv := by
  have hlen : (M.getD r []).length = n := hrect _ (getD_mem_of_lt hr)
  rw [rowOpSub_getE_self M r f prow nv hr, if_pos (by omega)]

theorem solSet_rowOpSub (M : Mat) {n : Nat} (hrect : Rect M n) {nv : Nat}
    (hnv : nv < n) {r prow : Nat} (hr : r < M.length)
    (hprow : prow < M.length) (hne : r ≠ prow) (f : ℚ) :
    solSet (rowOpSub M r f prow) nv = solSet M nv := by
  have hotherrow : ∀ i, i ≠ r →
      (rowOpSub M r f prow).getD i [] = M.getD i [] := fun i hi =>
    rowOpSub_getD_other M r f prow i hi
  ext x
  simp only [solSet, Set.mem_setOf_eq, rowOpSub_length]
  constructor
  · intro h i him
    rcases eq_or_ne i r with rfl | hir
    · have h1 := h i him
      have h2 := row_eqn_transfer nv (hotherrow prow (fun hh => hne hh.symm))
        x (h prow hprow)
      rw [eqSum_sub_row M hrect hnv hr f prow x,
        getE_rowOpSub_rhs M hrect hnv hr f prow] at h1
      have h3 : f * eqSum M nv prow x = f * getE M prow nv := by rw [h2]
      linarith
    · exact row_eqn_transfer nv (hotherrow i hir) x (h i him)
  · intro h i him
    rcases eq_or_ne i r with rfl | hir
    · rw [eqSum_sub_row M hrect hnv hr f prow x,
        getE_rowOpSub_rhs M hrect hnv hr f prow, h i him, h prow hprow]
    · rw [eqSum_congr_rows nv (hotherrow i hir) x,
        show getE (rowOpSub M r f prow) i nv = getE M i nv from
          congrArg (fun row => row.getD nv 0) (hotherrow i hir)]
      exact h i him

/-- The combined preservation invariant for C5: same row count, still
rectangular, same row space, same solution sets. -/
def SpanPres (A : Mat) (n : Nat) (N : Mat) : Prop :=
  N.length = A.length ∧ Rect N n ∧ rowSpan N = rowSpan A ∧
    ∀ nv, nv < n → solSet N nv = solSet A nv

theorem elimFold_spanPres (A : Mat) (n col prow : Nat) (pv : ℚ)
    (hprow : prow < A.length) :
    ∀ (l : List Nat) (N : Mat), (∀ r ∈ l, prow < r ∧ r < A.length) →
      SpanPres A n N →
      SpanPres A n (l.foldl (fun N r => if getE N r col = 0 then N
        else rowOpSub N r (getE N r col / pv) prow) N) := by
  intro l N hl hp
  refine foldl_preserve _ (SpanPres A n) l N (fun y b hb hy => ?_) hp
  by_cases hbz : getE y b col = 0
  · show SpanPres A n (if getE y b col = 0 then y
      else rowOpSub y b (getE y b col / pv) prow)
    rw [if_pos hbz]
    exact hy
  · show SpanPres A n (if getE y b col = 0 then y
      else rowOpSub y b (getE y b col / pv) prow)
    rw [if_neg hbz]
    obtain ⟨hylen, hyrect, hyspan, hysol⟩ := hy
    have hbr : b < y.length := by rw [hylen]; exact (hl b hb).2
    have hbprow : prow < y.length := by rw [hylen]; exact hprow
    have hbne : b ≠ prow := by
      have := (hl b hb).1
      omega
    refine ⟨by rw [rowOpSub_length]; exact hylen,
      rect_rowOpSub hyrect hbr _ _, ?_, ?_⟩
    · rw [rowSpan_rowOpSub y hyrect hbr hbprow hbne, hyspan]
    · intro nv hnv
      rw [solSet_rowOpSub y hyrect hnv hbr hbprow hbne, hysol nv hnv]

theorem refStep_spanPres (A : Mat) (n : Nat) (st : RefState) (c : Nat)
    (h : SpanPres A n st.M) : SpanPres A n (refStep A.length st c).M := by
  by_cases hge : st.pivot_row ≥ A.length
  · rw [refStep_eq_guard hge]
    exact h
  cases hfind : (List.range' st.pivot_row (A.length - st.pivot_row)).find?
      (fun r => decide (getE st.M r c ≠ 0)) with
  | none =>
    rw [refStep_eq_none hge hfind]
    exact h
  | some pivot =>
    rw [refStep_eq_some hge hfind]
    obtain ⟨hlen, hrect, hspan, hsol⟩ := h
    obtain ⟨-, hplow, hphigh, -⟩ := find?_range'_some hfind
    have hpm : pivot < A.length := by omega
    have hprm : st.pivot_row < A.length := by omega
    have hM1 : SpanPres A n (if pivot ≠ st.pivot_row
        then rowSwap st.M pivot st.pivot_row else st.M) := by
      split_ifs with hne
      · refine ⟨by rw [rowSwap_length]; exact hlen,
          rect_rowSwap hrect (by omega) (by omega), ?_, ?_⟩
        · rw [rowSpan_rowSwap st.M pivot st.pivot_row (by omega) (by omega)
            hne, hspan]
        · intro nv hnv
          rw [solSet_rowSwap st.M nv pivot st.pivot_row (by omega) (by omega)
            hne, hsol nv hnv]
      · exact ⟨hlen, hrect, hspan, hsol⟩
    show SpanPres A n (elimBelow _ st.pivot_row c _ A.length)
    rw [elimBelow]
    refine elimFold_spanPres A n c st.pivot_row _ hprm _ _ ?_ hM1
    intro r hr
    rw [List.mem_range'_1] at hr
    omega

/-- C5: `ref` preserves the row space, hence the rank, and the solution set
of the linear system the matrix encodes when read as augmented. -/
theorem ref_preserves_spaces (A : Mat) (n : Nat) (hrect : Rect A n) :
    rowSpan (ref A).1 = rowSpan A ∧
    Module.finrank ℚ (rowSpan (ref A).1) = Module.finrank ℚ (rowSpan A) ∧
    ∀ n_vars, n_vars + 1 = n →
      solSet (ref A).1 n_vars = solSet A n_vars := by
  have hfold : SpanPres A n (((List.range (matCols A)).foldl
      (refStep A.length) ⟨A, 0, []⟩).M) := by
    refine foldl_preserve (refStep A.length)
      (fun st => SpanPres A n st.M) (List.range (matCols A)) ⟨A, 0, []⟩
      (fun y b _ hy => refStep_spanPres A n y b hy) ?_
    exact ⟨rfl, hrect, rfl, fun _ _ => rfl⟩
  obtain ⟨hlen, hrect2, hspan, hsol⟩ := hfold
  exact ⟨hspan,
    congrArg (fun S : Submodule ℚ (Nat → ℚ) => Module.finrank ℚ S) hspan,
    fun nv hnv => hsol nv (by omega)⟩

instance instDecidableRect (M : Mat) (n : Nat) : Decidable (Rect M n) :=
  decidable_of_iff (∀ row ∈ M, row.length = n) Iff.rfl

/-- C5 witness: row-space, rank and solution-set preservation on a concrete
2×3 augmented matrix. -/
theorem ref_preserves_spaces_witness :
    Rect [[2, 0, 4], [0, 3, 9]] 3 ∧
      (rowSpan (ref [[2, 0, 4], [0, 3, 9]]).1
          = rowSpan [[2, 0, 4], [0, 3, 9]] ∧
        Module.finrank ℚ (rowSpan (ref [[2, 0, 4], [0, 3, 9]]).1)
          = Module.finrank ℚ (rowSpan [[2, 0, 4], [0, 3, 9]]) ∧
        ∀ n_vars, n_vars + 1 = 3 →
          solSet (ref [[2, 0, 4], [0, 3, 9]]).1 n_vars
            = solSet [[2, 0, 4], [0, 3, 9]] n_vars) :=
  ⟨by decide, ref_preserves_spaces [[2, 0, 4], [0, 3, 9]] 3 (by decide)⟩

/-! ## Claim C10: neither operation mutates its input -/

theorem writeObj_self (h : Heap) (a : Nat) (M : Mat) :
    writeObj h a M a = M := by
  rw [writeObj, if_pos rfl]

theorem writeObj_other (h : Heap) (a : Nat) (M : Mat) {x : Nat}
    (hx : x ≠ a) : writeObj h a M x = h x := by
  rw [writeObj, if_neg hx]

/-- Projection of a heap-level reduction state onto the working object. -/
def projH (st : RefStateH) (aM : Nat) : RefState :=
  ⟨st.heap aM, st.pivot_row, st.pivot_cols⟩

theorem elimFoldH_proj (aM prow col : Nat) (pv : ℚ) :
    ∀ (l : List Nat) (h : Heap),
      (∀ x, x ≠ aM →
        (l.foldl (fun h r => if getE (h aM) r col = 0 then h
          else writeObj h aM
            (rowOpSub (h aM) r (getE (h aM) r col / pv) prow)) h) x = h x) ∧
      (l.foldl (fun h r => if getE (h aM) r col = 0 then h
          else writeObj h aM
            (rowOpSub (h aM) r (getE (h aM) r col / pv) prow)) h) aM
        = l.foldl (fun N r => if getE N r col = 0 then N
            else rowOpSub N r (getE N r col / pv) prow) (h aM) := by
  intro l
  induction l with
  | nil => intro h; exact ⟨fun x _ => rfl, rfl⟩
  | cons a l ih =>
    intro h
    rw [List.foldl_cons, List.foldl_cons]
    by_cases ha : getE (h aM) a col = 0
    · rw [if_pos ha, if_pos ha]
      exact ih h
    · rw [if_neg ha]
      obtain ⟨ihframe, ihproj⟩ :=
        ih (writeObj h aM (rowOpSub (h aM) a (getE (h aM) a col / pv) prow))
      refine ⟨fun x hx => ?_, ?_⟩
      · rw [ihframe x hx, writeObj_other h aM _ hx]
      · rw [ihproj, writeObj_self, if_neg ha]

theorem refStepH_eq_guard {aM m : Nat} {st : RefStateH} {col : Nat}
    (hge : st.pivot_row ≥ m) : refStepH aM m st col = st := by
  rw [refStepH, if_pos hge]

theorem refStepH_eq_none {aM m : Nat} {st : RefStateH} {col : Nat}
    (hge : ¬ st.pivot_row ≥ m)
    (hfind : (List.range' st.pivot_row (m - st.pivot_row)).find?
      (fun r => decide (getE (st.heap aM) r col ≠ 0)) = none) :
    refStepH aM m st col = st := by
  rw [refStepH, if_neg hge]
  simp only [hfind]

theorem refStepH_eq_some {aM m : Nat} {st : RefStateH} {col pivot : Nat}
    (hge : ¬ st.pivot_row ≥ m)
    (hfind : (List.range' st.pivot_row (m - st.pivot_row)).find?
      (fun r => decide (getE (st.heap aM) r col ≠ 0)) = some pivot) :
    refStepH aM m st col =
      ⟨elimBelowH
          (if pivot ≠ st.pivot_row
            then writeObj st.heap aM (rowSwap (st.heap aM) pivot st.pivot_row)
            else st.heap) aM st.pivot_row col
          (getE ((if pivot ≠ st.pivot_row
            then writeObj st.heap aM (rowSwap (st.heap aM) pivot st.pivot_row)
            else st.heap) aM) st.pivot_row col) m,
        st.pivot_row + 1, st.pivot_cols ++ [col]⟩ := by
  rw [refStepH, if_neg hge]
  simp only [hfind]

theorem refStepH_proj (aM m : Nat) (st : RefStateH) (col : Nat) :
    (∀ x, x ≠ aM → (refStepH aM m st col).heap x = st.heap x) ∧
    projH (refStepH aM m st col) aM = refStep m (projH st aM) col := by
  by_cases hge : st.pivot_row ≥ m
  · rw [refStepH_eq_guard hge, refStep_eq_guard hge]
    exact ⟨fun x _ => rfl, rfl⟩
  cases hfind : (List.range' st.pivot_row (m - st.pivot_row)).find?
      (fun r => decide (getE (st.heap aM) r col ≠ 0)) with
  | none =>
    rw [refStepH_eq_none hge hfind, refStep_eq_none hge hfind]
    exact ⟨fun x _ => rfl, rfl⟩
  | some pivot =>
    rw [refStepH_eq_some hge hfind, refStep_eq_some hge hfind]
    have hread : (if pivot ≠ st.pivot_row
        then writeObj st.heap aM (rowSwap (st.heap aM) pivot st.pivot_row)
        else st.heap) aM
          = (if pivot ≠ st.pivot_row
            then rowSwap (st.heap aM) pivot st.pivot_row else st.heap aM) := by
      split_ifs with hne
      · exact writeObj_self _ _ _
      · rfl
    have hframe1 : ∀ x, x ≠ aM → (if pivot ≠ st.pivot_row
        then writeObj st.heap aM (rowSwap (st.heap aM) pivot st.pivot_row)
        else st.heap) x = st.heap x := by
      intro x hx
      split_ifs with hne
      · exact writeObj_other _ _ _ hx
      · rfl
    obtain ⟨hfr, hpr⟩ := elimFoldH_proj aM st.pivot_row col
      (getE ((if pivot ≠ st.pivot_row
        then writeObj st.heap aM (rowSwap (st.heap aM) pivot st.pivot_row)
        else st.heap) aM) st.pivot_row col)
      (List.range' (st.pivot_row + 1) (m - (st.pivot_row + 1)))
      (if pivot ≠ st.pivot_row
        then writeObj st.heap aM (rowSwap (st.heap aM) pivot st.pivot_row)
        else st.heap)
    constructor
    · intro x hx
      show (elimBelowH _ aM st.pivot_row col _ m) x = st.heap x
      rw [elimBelowH]
      rw [hfr x hx]
      exact hframe1 x hx
    · show (⟨(elimBelowH _ aM st.pivot_row col _ m) aM,
          st.pivot_row + 1, st.pivot_cols ++ [col]⟩ : RefState)
        = ⟨elimBelow _ st.pivot_row col _ m,
          st.pivot_row + 1, st.pivot_cols ++ [col]⟩
      rw [elimBelowH, elimBelow]
      rw [hpr, hread]
      rfl

theorem refFoldH_proj (aM m : Nat) :
    ∀ (l : List Nat) (stH : RefStateH),
      (∀ x, x ≠ aM →
        (l.foldl (refStepH aM m) stH).heap x = stH.heap x) ∧
      projH (l.foldl (refStepH aM m) stH) aM
        = l.foldl (refStep m) (projH stH aM) := by
  intro l
  induction l with
  | nil => intro stH; exact ⟨fun x _ => rfl, rfl⟩
  | cons a l ih =>
    intro stH
    rw [List.foldl_cons, List.foldl_cons]
    obtain ⟨hfr1, hpr1⟩ := refStepH_proj aM m stH a
    obtain ⟨hfr2, hpr2⟩ := ih (refStepH aM m stH a)
    refine ⟨fun x hx => ?_, ?_⟩
    · rw [hfr2 x hx, hfr1 x hx]
    · rw [hpr2, hpr1]

/-- C10: `ref` works on a copy — after `refH` the caller's matrix object at
`aA` is unchanged and the result object holds exactly `ref` of the input —
and `back_substitution` performs no heap write at all. -/
theorem no_input_mutation (h : Heap) (aA aM : Nat) (hne : aM ≠ aA)
    (n_vars : Nat) :
    (refH h aA aM).1 aA = h aA ∧
    ((refH h aA aM).1 ((refH h aA aM).2.1), (refH h aA aM).2.2)
      = ref (h aA) ∧
    (back_substitutionH h aA n_vars).1 = h := by
  have h0M : writeObj h aM (h aA) aM = h aA := writeObj_self h aM (h aA)
  obtain ⟨hfr, hpr⟩ := refFoldH_proj aM ((writeObj h aM (h aA)) aM).length
    (List.range (matCols ((writeObj h aM (h aA)) aM)))
    ⟨writeObj h aM (h aA), 0, []⟩
  refine ⟨?_, ?_, rfl⟩
  · show ((List.range (matCols ((writeObj h aM (h aA)) aM))).foldl
      (refStepH aM ((writeObj h aM (h aA)) aM).length)
      ⟨writeObj h aM (h aA), 0, []⟩).heap aA = h aA
    rw [hfr aA (fun hh => hne hh.symm)]
    exact writeObj_other h aM (h aA) (fun hh => hne hh.symm)
  · show (((List.range (matCols ((writeObj h aM (h aA)) aM))).foldl
        (refStepH aM ((writeObj h aM (h aA)) aM).length)
        ⟨writeObj h aM (h aA), 0, []⟩).heap aM,
      ((List.range (matCols ((writeObj h aM (h aA)) aM))).foldl
        (refStepH aM ((writeObj h aM (h aA)) aM).length)
        ⟨writeObj h aM (h aA), 0, []⟩).pivot_cols)
      = ref (h aA)
    have hM : ((List.range (matCols ((writeObj h aM (h aA)) aM))).foldl
        (refStepH aM ((writeObj h aM (h aA)) aM).length)
        ⟨writeObj h aM (h aA), 0, []⟩).heap aM
        = ((List.range (matCols ((writeObj h aM (h aA)) aM))).foldl
          (refStep ((writeObj h aM (h aA)) aM).length)
          ⟨(writeObj h aM (h aA)) aM, 0, []⟩).M :=
      congrArg RefState.M hpr
    have hP : ((List.range (matCols ((writeObj h aM (h aA)) aM))).foldl
        (refStepH aM ((writeObj h aM (h aA)) aM).length)
        ⟨writeObj h aM (h aA), 0, []⟩).pivot_cols
        = ((List.range (matCols ((writeObj h aM (h aA)) aM))).foldl
          (refStep ((writeObj h aM (h aA)) aM).length)
          ⟨(writeObj h aM (h aA)) aM, 0, []⟩).pivot_cols :=
      congrArg RefState.pivot_cols hpr
    rw [hM, hP, h0M]
    rfl

/-- C10 witness: on a concrete two-object heap, the caller's matrix at
address 0 is untouched while address 1 receives the reduction, and the
solver leaves the heap unchanged. -/
theorem no_input_mutation_witness :
    (1 : Nat) ≠ 0 ∧
      ((refH (fun _ => [[1, 2], [3, 4]]) 0 1).1 0 = [[1, 2], [3, 4]] ∧
        ((refH (fun _ => [[1, 2], [3, 4]]) 0 1).1
            ((refH (fun _ => [[1, 2], [3, 4]]) 0 1).2.1),
          (refH (fun _ => [[1, 2], [3, 4]]) 0 1).2.2)
          = ref [[1, 2], [3, 4]] ∧
        (back_substitutionH (fun _ => [[1, 2], [3, 4]]) 0 1).1
          = fun _ => [[1, 2], [3, 4]]) :=
  ⟨by decide, no_input_mutation (fun _ => [[1, 2], [3, 4]]) 0 1 (by decide) 1⟩

end MathWithPython
